import Mathlib

/-!
Verification of the ChefGPT retrieval core (`src/rag_modules/`) against its
natural-language specification.  The Python source is shallowly embedded:
documents and fragments become a `Doc` structure with an insertion-ordered
association-list metadata map (mirroring Python `dict` semantics), the two
external rankers, the markdown splitter, the uuid generator and the Python
`hash` builtin are passed in as function parameters, and fallible code is
modelled with `Except`.  Definitions come first, theorems after.
-/

namespace ChefGPT

/-! # Definitions -/

/-- A Python metadata value: the source stores strings and ints (and the
filter interface additionally accepts lists of strings, as in the docstring
example `filters = {"category": "菜谱", "difficulty": ["简单", "中等"]}`). -/
inductive MetaVal where
  | str (v : String)
  | int (v : Int)
  | list (vs : List String)
deriving DecidableEq, Repr

/-- Python truthiness of a metadata value, used by `get_parent_document`'s
`if parent_id:` test. -/
def MetaVal.truthy : MetaVal → Bool
  | .str v => v ≠ ""
  | .int v => v ≠ 0
  | .list vs => !vs.isEmpty

/-- Python `str(value)`, as used in f-strings (only the string case is ever
exercised by the pipeline). -/
def MetaVal.render : MetaVal → String
  | .str v => v
  | .int v => toString v
  | .list vs => toString vs

/-- Insertion-ordered association list, the model of a Python `dict`. -/
abbrev Dict (κ β : Type) := List (κ × β)

section DictOps

variable {κ β : Type} [DecidableEq κ]

/-- First value stored under key `k` (Python `d.get(k)` / `d[k]`). -/
def alook : Dict κ β → κ → Option β
  | [], _ => none
  | (k', v) :: m, k => if k' = k then some v else alook m k

/-- Python `d[k] = f(d.get(k))`: replace the value in place when the key is
present (dict assignment keeps the key's position), append otherwise.  A
Python dict holds each key at most once, so replacing the first entry is
replacing the entry. -/
def upsert : Dict κ β → κ → (Option β → β) → Dict κ β
  | [], k, f => [(k, f none)]
  | (k', v) :: m, k, f =>
      if k' = k then (k, f (some v)) :: m else (k', v) :: upsert m k f

/-- Building a dict by repeated assignment, keyed through `key`, the stored
value combining the new element with the previous value. -/
def dictFold (key : α → κ) (f : α → Option β → β) (l : List α) (m0 : Dict κ β) :
    Dict κ β :=
  l.foldl (fun m a => upsert m (key a) (f a)) m0

/-- Python `d.update(other)`: assign every entry of `other` into `d`,
in `other`'s iteration order. -/
def dupdate (m other : Dict κ β) : Dict κ β :=
  other.foldl (fun acc p => upsert acc p.1 (fun _ => p.2)) m

end DictOps

/-- Document / fragment object: a langchain `Document` with `page_content`
and a metadata dict. -/
structure Doc where
  page_content : String
  metadata : Dict String MetaVal
deriving DecidableEq, Repr

/-- `doc.metadata.get(k)`. -/
def Doc.mget (d : Doc) (k : String) : Option MetaVal := alook d.metadata k

/-! ## Generic list utilities (positions, ordering, Python's stable sort) -/

/-- 0-based position of the first element satisfying `p`, if any. -/
def firstPosBy (p : α → Bool) : List α → Option Nat
  | [] => none
  | a :: as => if p a then some 0 else (firstPosBy p as).map (· + 1)

/-- Order on optional positions where `none` (absent) counts as `+∞`. -/
def optLt : Option Nat → Option Nat → Prop
  | some i, some j => i < j
  | some _, none => True
  | none, _ => False

/-- Lexicographic strict order on pairs of optional positions. -/
def posLexLt (a b : Option Nat × Option Nat) : Prop :=
  optLt a.1 b.1 ∨ (a.1 = b.1 ∧ optLt a.2 b.2)

/-- Insert `x` into a descending-sorted list, before the first element whose
score does not exceed `x`'s (so equal scores keep the incoming element
first, as in a stable sort). -/
def insDesc [LinearOrder β] (f : α → β) (x : α) : List α → List α
  | [] => [x]
  | y :: ys => if f y ≤ f x then x :: y :: ys else y :: insDesc f x ys

/-- Python `sorted(l, key=f, reverse=True)`: stable descending sort. -/
def sortDesc [LinearOrder β] (f : α → β) : List α → List α
  | [] => []
  | x :: xs => insDesc f x (sortDesc f xs)

/-! ## Data preparation: difficulty labelling (`_enhance_metadata`) -/

/-- `startsWithChars s p`: `p` is an initial segment of `s`. -/
def startsWithChars : List Char → List Char → Bool
  | _, [] => true
  | [], _ :: _ => false
  | c :: cs, p :: ps => c = p && startsWithChars cs ps

/-- `occursIn p s`: `p` occurs contiguously inside `s`. -/
def occursIn (p : List Char) : List Char → Bool
  | [] => p.isEmpty
  | c :: cs => startsWithChars (c :: cs) p || occursIn p cs

/-- Python `needle in hay` for `String`. -/
def strContains (hay needle : String) : Bool := occursIn needle.data hay.data

/-- The difficulty branch of `_enhance_metadata`: checks the five star
strings from longest to shortest with Python `in`. -/
def difficultyOf (content : String) : String :=
  if strContains content "★★★★★" then "非常困难"
  else if strContains content "★★★★" then "困难"
  else if strContains content "★★★" then "中等难度"
  else if strContains content "★★" then "比较简单"
  else if strContains content "★" then "简单"
  else "未知难度"

/-- Number of occurrences of the difficulty glyph in a text (the quantity the
spec claims determines the label). -/
def starCount (s : String) : Nat := (s.data.filter (· = '★')).length

/-- Length of the leading run of stars. -/
def leadRun : List Char → Nat
  | [] => 0
  | c :: cs => if c = '★' then leadRun cs + 1 else 0

/-- Length of the longest contiguous run of stars. -/
def maxStarRun : List Char → Nat
  | [] => 0
  | c :: cs => max (leadRun (c :: cs)) (maxStarRun cs)

/-- The five ordered labels, selected by the longest contiguous glyph run. -/
def runLabel (n : Nat) : String :=
  if 5 ≤ n then "非常困难"
  else if 4 ≤ n then "困难"
  else if 3 ≤ n then "中等难度"
  else if 2 ≤ n then "比较简单"
  else if 1 ≤ n then "简单"
  else "未知难度"

/-! ## Data preparation: hierarchical splitting
(`chunk_documents` / `_markdown_header_split`)

`MarkdownHeaderTextSplitter.split_text` is an external capability, passed in
as `splitter : String → Except String (List Doc)` (`.error` models a raised
exception).  `uuid.uuid4()` is modelled as a supply of distinct opaque
strings drawn from a counter carried in `SplitState`. -/

/-- Mutable state of `DataPreparationModule` during splitting: the uuid
supply and `self.parent_child_map`. -/
structure SplitState where
  counter : Nat
  parent_child_map : Dict String MetaVal
deriving DecidableEq, Repr

/-- The `n`-th fresh identifier produced by the uuid supply (distinct
strings; injectivity stands in for uuid4's collision-freeness). -/
def freshId (n : Nat) : String := String.mk (List.replicate (n + 1) 'u')

/-- Body of the `for i, chunk in enumerate(single_chunks)` loop of
`_markdown_header_split`: copy the parent's metadata onto the chunk, force
`dish_name`, assign `chunk_id`/`parent_id`/`doc_type`/`chunk_index`, and
record the fragment→document map entry. -/
def splitLoop (pid : MetaVal) (parentMeta : Dict String MetaVal) :
    List Doc → Nat → SplitState → SplitState × List Doc
  | [], _, st => (st, [])
  | c :: cs, i, st =>
      let child_id := freshId st.counter
      let m1 := dupdate c.metadata parentMeta
      let m2 := upsert m1 "dish_name"
        (fun _ => (alook parentMeta "dish_name").getD (.str "未知菜品"))
      let m3 := upsert m2 "chunk_id" (fun _ => .str child_id)
      let m4 := upsert m3 "parent_id" (fun _ => pid)
      let m5 := upsert m4 "doc_type" (fun _ => .str "child")
      let m6 := upsert m5 "chunk_index" (fun _ => .int i)
      let st1 : SplitState :=
        { counter := st.counter + 1,
          parent_child_map := upsert st.parent_child_map child_id (fun _ => pid) }
      let (st2, rest) := splitLoop pid parentMeta cs (i + 1) st1
      (st2, { page_content := c.page_content, metadata := m6 } :: rest)

/-- Per-document body of `_markdown_header_split`: try the structural split
(and the `doc.metadata["parent_id"]` lookup, which is also inside the
`try`); on any failure fall back to the whole document as its own single
chunk. -/
def splitOne (splitter : String → Except String (List Doc)) (st : SplitState)
    (doc : Doc) : SplitState × List Doc :=
  match splitter doc.page_content, alook doc.metadata "parent_id" with
  | .ok single_chunks, some pid => splitLoop pid doc.metadata single_chunks 0 st
  | _, _ => (st, [doc])

/-- `_markdown_header_split`: all documents' chunk blocks concatenated in
document order. -/
def markdown_header_split (splitter : String → Except String (List Doc)) :
    List Doc → SplitState → SplitState × List Doc
  | [], st => (st, [])
  | d :: ds, st =>
      let (st1, block) := splitOne splitter st d
      let (st2, rest) := markdown_header_split splitter ds st1
      (st2, block ++ rest)

/-- `chunk_documents`: raise on an unloaded corpus, split, then stamp every
chunk with its sequential `chunk_id` and its `chunk_size` (overwriting the
`chunk_id` written during splitting). -/
def chunk_documents (splitter : String → Except String (List Doc))
    (documents : List Doc) (st0 : SplitState) :
    Except String (SplitState × List Doc) :=
  match documents with
  | [] => .error "未加载文档"
  | _ :: _ =>
      let (st, chunks) := markdown_header_split splitter documents st0
      .ok (st, chunks.enum.map (fun p =>
        { p.2 with
          metadata :=
            upsert (upsert p.2.metadata "chunk_id" (fun _ => .int p.1))
              "chunk_size" (fun _ => .int p.2.page_content.length) }))

/-! ## Data preparation: parent resolution (`get_parent_document`) -/

/-- One iteration of `get_parent_document`'s counting loop over the child
chunks: on a truthy `parent_id`, bump its relevance count and cache the
first loaded document carrying that id (if any). -/
def resolveStep (documents : List Doc)
    (acc : Dict MetaVal Nat × Dict MetaVal Doc) (chunk : Doc) :
    Dict MetaVal Nat × Dict MetaVal Doc :=
  match chunk.mget "parent_id" with
  | some pid =>
      if pid.truthy then
        let rel := upsert acc.1 pid (fun o => o.getD 0 + 1)
        let dm :=
          if (alook acc.2 pid).isSome then acc.2
          else
            match documents.find? (fun d => d.mget "parent_id" = some pid) with
            | some doc => upsert acc.2 pid (fun _ => doc)
            | none => acc.2
        (rel, dm)
      else acc
  | none => acc

/-- `get_parent_document`: count fragments per owning-document id, sort the
distinct ids by descending count (Python's stable sort), and map each id
through the cached parent documents, silently skipping unresolvable ids. -/
def get_parent_document (documents child_chunks : List Doc) : List Doc :=
  let acc := child_chunks.foldl (resolveStep documents) ([], [])
  let sorted_parent_ids :=
    sortDesc (fun pid => (alook acc.1 pid).getD 0) (acc.1.map Prod.fst)
  sorted_parent_ids.filterMap (alook acc.2)

/-- The sequence of truthy owning-document ids referenced by the input
fragments, in input order (the multiset the relevance counts summarise). -/
def pidSeq (chunks : List Doc) : List MetaVal :=
  chunks.filterMap (fun c =>
    match c.mget "parent_id" with
    | some pid => if pid.truthy then some pid else none
    | none => none)

/-! ## Retrieval optimization (`retrieval_optimization.py`)

The dense and sparse rankers are external capabilities
`vr br : String → List Doc`; Python's `hash` builtin is an arbitrary
function `h : String → Int` (deterministic within a run, equal on equal
strings). -/

/-- Fusion weight of the dense (vector) ranker. -/
def vec_weight : ℚ := 1

/-- Fusion weight of the sparse (BM25) ranker. -/
def bm25_weight : ℚ := 0

/-- One accumulation pass of `_rrf_rerank`:
`rrf_scores[hash(doc.page_content)] += w * 1 / (rank + c + 1)` with `c = 60`,
ranks 0-based; the scores table maps absent keys to 0
(`rrf_scores.get(doc_id, 0)`). -/
def scorePass (h : String → Int) (w : ℚ) :
    List Doc → Nat → (Int → ℚ) → (Int → ℚ)
  | [], _, sc => sc
  | d :: ds, rank, sc =>
      scorePass h w ds (rank + 1)
        (fun k =>
          if h d.page_content = k then sc k + w * 1 / ((rank : ℚ) + 60 + 1)
          else sc k)

/-- The fused score table after both passes of `_rrf_rerank`. -/
def rrf_scores (h : String → Int) (vector_docs BM25_docs : List Doc) :
    Int → ℚ :=
  scorePass h bm25_weight BM25_docs 0
    (scorePass h vec_weight vector_docs 0 (fun _ => 0))

/-- `all_docs = {hash(doc.page_content): doc for doc in vector_docs + BM25_docs}`:
a Python dict comprehension keeps first-insertion key order and lets later
entries overwrite earlier values. -/
def all_docs (h : String → Int) (docs : List Doc) : Dict Int Doc :=
  dictFold (fun d => h d.page_content) (fun d _ => d) docs []

/-- `_rrf_rerank`: fuse the two ranked lists, merge by content hash, sort by
descending fused score (Python's sort is stable), return the documents. -/
def rrf_rerank (h : String → Int) (vector_docs BM25_docs : List Doc) :
    List Doc :=
  let sc := rrf_scores h vector_docs BM25_docs
  (sortDesc (fun p => sc p.1) (all_docs h (vector_docs ++ BM25_docs))).map
    Prod.snd

/-- `hybrid_search`: run both rankers on the query and keep the first
`top_k` fused results. -/
def hybrid_search (h : String → Int) (vr br : String → List Doc)
    (query : String) (top_k : Nat) : List Doc :=
  (rrf_rerank h (vr query) (br query)).take top_k

/-- `metadata_filtered_search`: hybrid search with an inflated candidate
count, then the filtering loop.  The loop body evaluates `filter.items()`
where `filter` is the Python **builtin function** (the parameter is named
`filters`), so the first iteration raises
`AttributeError: 'builtin_function_or_method' object has no attribute 'items'`;
the filtering logic is unreachable and an empty candidate list is the only
way to return. -/
def metadata_filtered_search (h : String → Int) (vr br : String → List Doc)
    (query : String) (filters : Dict String MetaVal) (top_k : Nat) :
    Except String (List Doc) :=
  let original_docs := hybrid_search h vr br query (top_k * 3)
  match original_docs with
  | [] => .ok []
  | _ :: _ =>
      .error
        "AttributeError: 'builtin_function_or_method' object has no attribute 'items'"

/-- The spec's per-ranker reciprocal-rank contribution to a key `k`:
`w * 1/(rank + 60 + 1)` summed over the positions of `k` in the ranked
list. -/
def rrfSum (h : String → Int) (w : ℚ) (k : Int) : List Doc → Nat → ℚ
  | [], _ => 0
  | d :: ds, rank =>
      (if h d.page_content = k then w * 1 / ((rank : ℚ) + 60 + 1) else 0) +
        rrfSum h w k ds (rank + 1)

/-- 0-based position of the first fragment with content-hash key `k` in a
ranked list. -/
def keyPos (h : String → Int) (k : Int) (l : List Doc) : Option Nat :=
  firstPosBy (fun d => h d.page_content = k) l

/-- A key's (dense position, sparse position) pair, the tie-break data of
the fused ordering. -/
def posPair (h : String → Int) (vec bm : List Doc) (k : Int) :
    Option Nat × Option Nat :=
  (keyPos h k vec, keyPos h k bm)

/-! ## Index construction (`index_construction.py`, `build_vector_index`) -/

/-- `build_vector_index`: raises on an empty chunk list, otherwise rewrites
**in place** every chunk's `page_content` to
`f"菜品：{dish_name}\n{chunk.page_content}"` before handing the chunks to the
FAISS index (an external capability).  The returned list is the state of
the shared chunk objects after the call. -/
def build_vector_index (chunks : List Doc) : Except String (List Doc) :=
  match chunks with
  | [] => .error "文档块列表不能为空"
  | _ :: _ =>
      .ok (chunks.map (fun c =>
        { c with
          page_content :=
            "菜品：" ++ ((c.mget "dish_name").getD (.str "")).render ++ "\n" ++
              c.page_content }))

/-! ## Query router (`generation_integration.py`, `query_router`) -/

/-- The four valid intent labels of the router. -/
def valid_routes : List String := ["list", "detail", "general", "chitchat"]

/-- Python `str.isspace` on the whitespace characters `strip()` removes (the
common ASCII ones suffice for this model). -/
def isSpaceChar (c : Char) : Bool :=
  c = ' ' || c = '\t' || c = '\n' || c = '\r'

/-- Python `s.strip()`: drop whitespace from both ends. -/
def pyStrip (s : String) : String :=
  String.mk (((s.data.dropWhile isSpaceChar).reverse.dropWhile isSpaceChar).reverse)

/-- Python `s.lower()` (ASCII case mapping). -/
def pyLower (s : String) : String := String.mk (s.data.map Char.toLower)

/-- `query_router`'s handling of the generator's raw textual reply:
`response.strip().lower()`, membership test against the four labels,
`'general'` otherwise.  The function is total: no reply can make it raise. -/
def query_router (response : String) : String :=
  if pyLower (pyStrip response) ∈ valid_routes then pyLower (pyStrip response)
  else "general"

/-! ## Concrete sample data for counterexamples and witnesses -/

/-- A concrete stand-in for Python's string hash (injective on lengths,
which the sample corpora below are chosen to distinguish). -/
def hLen (s : String) : Int := (s.length : Int)

/-- Two distinct fragments with identical text but different metadata. -/
def dupA : Doc := { page_content := "同文", metadata := [("chunk_id", .str "a")] }

/-- Second fragment with the same text as `dupA`. -/
def dupB : Doc := { page_content := "同文", metadata := [("chunk_id", .str "b")] }

/-- Sample fragment with category metadata, used as a retrieval candidate. -/
def cookDoc : Doc :=
  { page_content := "鱼香肉丝做法", metadata := [("category", .str "荤菜")] }

/-- Three sample fragments with pairwise distinct content lengths. -/
def docA : Doc := { page_content := "a", metadata := [] }

/-- See `docA`. -/
def docB : Doc := { page_content := "bb", metadata := [] }

/-- See `docA`. -/
def docC : Doc := { page_content := "ccc", metadata := [] }

/-- A parent document whose structural split succeeds (under
`toySplitter`). -/
def parentDoc : Doc :=
  { page_content := "# 标题\n正文",
    metadata := [("source", .str "s"), ("parent_id", .str "p1"),
      ("doc_type", .str "parent")] }

/-- A parent document whose structural split fails (under `toySplitter`). -/
def badDoc : Doc :=
  { page_content := "无法分割",
    metadata := [("source", .str "t"), ("parent_id", .str "p2"),
      ("doc_type", .str "parent")] }

/-- A concrete splitter capability: splits `parentDoc`'s text into one
header chunk and raises on everything else. -/
def toySplitter : String → Except String (List Doc) := fun s =>
  if s = "# 标题\n正文" then
    Except.ok [({ page_content := "# 标题\n正文",
                  metadata := [("主标题", .str "标题")] } : Doc)]
  else Except.error "split failed"

/-- A splitter capability that always raises. -/
def errSplitter : String → Except String (List Doc) :=
  fun _ => Except.error "boom"

/-- A fragment carrying a dish name, for the index-construction claims. -/
def dishDoc : Doc :=
  { page_content := "做法正文", metadata := [("dish_name", .str "宫保鸡丁")] }

/-- Concrete parent documents and fragments for the resolver witness. -/
def docPA : Doc := { page_content := "菜A全文", metadata := [("parent_id", .str "pa")] }

/-- See `docPA`. -/
def docPB : Doc := { page_content := "菜B全文", metadata := [("parent_id", .str "pb")] }

/-- See `docPA`. -/
def fragA1 : Doc := { page_content := "a1", metadata := [("parent_id", .str "pa")] }

/-- See `docPA`. -/
def fragA2 : Doc := { page_content := "a2", metadata := [("parent_id", .str "pa")] }

/-- See `docPA`. -/
def fragB1 : Doc := { page_content := "b1", metadata := [("parent_id", .str "pb")] }

/-! # Theorems -/

/-! ## Dict lemmas -/

section DictLemmas

variable {κ β : Type} [DecidableEq κ]

theorem alook_upsert (m : Dict κ β) (k : κ) (f : Option β → β) (k2 : κ) :
    alook (upsert m k f) k2 =
      if k2 = k then some (f (alook m k)) else alook m k2 := by
  induction m with
  | nil =>
    simp only [upsert, alook]
    by_cases h : k2 = k
    · subst h; simp
    · rw [if_neg (Ne.symm h), if_neg h]
  | cons p m ih =>
    obtain ⟨k', v⟩ := p
    by_cases hk : k' = k
    · subst hk
      simp only [upsert, if_pos rfl]
      have hin : alook ((k', v) :: m) k' = some v := by simp [alook]
      rw [hin]
      by_cases h2 : k2 = k'
      · subst h2; simp [alook]
      · rw [if_neg h2]
        simp only [alook]
        rw [if_neg (Ne.symm h2), if_neg (Ne.symm h2)]
    · simp only [upsert, if_neg hk, alook]
      by_cases h2 : k' = k2
      · rw [if_pos h2, if_pos h2]
        subst h2
        rw [if_neg hk]
      · rw [if_neg h2, if_neg h2, ih]

theorem upsert_of_not_mem (m : Dict κ β) (k : κ) (f : Option β → β)
    (hk : k ∉ m.map Prod.fst) : upsert m k f = m ++ [(k, f none)] := by
  induction m with
  | nil => simp [upsert]
  | cons p m ih =>
    obtain ⟨k', v⟩ := p
    simp only [List.map_cons, List.mem_cons, not_or] at hk
    simp only [upsert, if_neg (Ne.symm hk.1), ih hk.2, List.cons_append]

theorem upsert_keys (m : Dict κ β) (k : κ) (f : Option β → β) :
    (upsert m k f).map Prod.fst =
      if k ∈ m.map Prod.fst then m.map Prod.fst
      else m.map Prod.fst ++ [k] := by
  induction m with
  | nil => simp [upsert]
  | cons p m ih =>
    obtain ⟨k', v⟩ := p
    by_cases hk : k' = k
    · subst hk; simp [upsert]
    · simp only [upsert, if_neg hk, List.map_cons, ih, List.mem_cons]
      by_cases hm : k ∈ m.map Prod.fst
      · simp [hm, Ne.symm hk]
      · simp [hm, Ne.symm hk]

theorem mem_upsert (m : Dict κ β) (k : κ) (f : Option β → β) (p : κ × β)
    (hp : p ∈ upsert m k f) : p ∈ m ∨ ∃ o, p = (k, f o) := by
  induction m with
  | nil =>
    simp only [upsert, List.mem_singleton] at hp
    exact Or.inr ⟨none, hp⟩
  | cons q m ih =>
    obtain ⟨k', v⟩ := q
    by_cases hk : k' = k
    · subst hk
      simp only [upsert, eq_self_iff_true, if_true, List.mem_cons] at hp
      rcases hp with h | h
      · exact Or.inr ⟨some v, h⟩
      · exact Or.inl (List.mem_cons_of_mem _ h)
    · simp only [upsert, if_neg hk, List.mem_cons] at hp
      rcases hp with h | h
      · exact Or.inl (by simp [h])
      · rcases ih h with h2 | h2
        · exact Or.inl (List.mem_cons_of_mem _ h2)
        · exact Or.inr h2

theorem upsert_eq_self (m : Dict κ β) (k : κ) (f : Option β → β) (v : β)
    (hv : alook m k = some v) (hf : f (some v) = v) : upsert m k f = m := by
  induction m with
  | nil => simp [alook] at hv
  | cons p m ih =>
    obtain ⟨k', v'⟩ := p
    by_cases hk : k' = k
    · subst hk
      have hv' : v' = v := by simpa [alook] using hv
      subst hv'
      simp [upsert, hf]
    · have hv2 : alook m k = some v := by simpa [alook, hk] using hv
      simp [upsert, hk, ih hv2]

theorem upsert_append_left (l1 l2 : Dict κ β) (k : κ) (f : Option β → β)
    (hk : k ∉ l1.map Prod.fst) :
    upsert (l1 ++ l2) k f = l1 ++ upsert l2 k f := by
  induction l1 with
  | nil => simp
  | cons p l1 ih =>
    obtain ⟨k', v⟩ := p
    simp only [List.map_cons, List.mem_cons, not_or] at hk
    simp only [List.cons_append, upsert, if_neg (Ne.symm hk.1), List.append_eq,
      ih hk.2]

end DictLemmas

/-! ## First-position lemmas -/

theorem firstPosBy_eq_none (p : α → Bool) (l : List α) :
    firstPosBy p l = none ↔ ∀ a ∈ l, p a = false := by
  induction l with
  | nil => simp [firstPosBy]
  | cons a l ih =>
    by_cases h : p a <;> simp [firstPosBy, h, ih]

theorem firstPosBy_lt_length (p : α → Bool) (l : List α) (i : Nat)
    (h : firstPosBy p l = some i) : i < l.length := by
  induction l generalizing i with
  | nil => simp [firstPosBy] at h
  | cons a l ih =>
    by_cases ha : p a
    · simp only [firstPosBy, if_pos ha, Option.some_inj] at h
      simp only [List.length_cons]
      omega
    · simp only [firstPosBy, if_neg ha, Option.map_eq_some'] at h
      obtain ⟨j, hj, hji⟩ := h
      have := ih j hj
      simp only [List.length_cons]
      omega

theorem firstPosBy_append_some (p : α → Bool) (l1 l2 : List α) (i : Nat)
    (h : firstPosBy p l1 = some i) : firstPosBy p (l1 ++ l2) = some i := by
  induction l1 generalizing i with
  | nil => simp [firstPosBy] at h
  | cons a l1 ih =>
    by_cases ha : p a
    · simp only [firstPosBy, if_pos ha, Option.some_inj] at h ⊢
      exact h
    · simp only [firstPosBy, if_neg ha, Option.map_eq_some'] at h
      obtain ⟨j, hj, hji⟩ := h
      simp only [List.cons_append, firstPosBy, if_neg ha, List.append_eq,
        ih j hj, Option.map_some']
      rw [hji]

theorem firstPosBy_append_none (p : α → Bool) (l1 l2 : List α)
    (h : firstPosBy p l1 = none) :
    firstPosBy p (l1 ++ l2) = (firstPosBy p l2).map (· + l1.length) := by
  induction l1 with
  | nil => simp
  | cons a l1 ih =>
    by_cases ha : p a
    · simp [firstPosBy, ha] at h
    · simp only [firstPosBy, if_neg ha, Option.map_eq_none'] at h
      simp only [List.cons_append, firstPosBy, if_neg ha, List.append_eq,
        ih h, Option.map_map, List.length_cons]
      cases firstPosBy p l2 with
      | none => simp
      | some j =>
        simp only [Option.map_some', Option.some_inj, Function.comp_apply]
        omega

theorem firstPosBy_mem_prefix (p : α → Bool) (l1 l2 : List α) (a : α)
    (ha : a ∈ l1) (hpa : p a = true) :
    ∃ i, firstPosBy p (l1 ++ l2) = some i ∧ i < l1.length := by
  have hne : firstPosBy p l1 ≠ none := by
    intro hnone
    have := (firstPosBy_eq_none p l1).1 hnone a ha
    rw [hpa] at this
    cases this
  obtain ⟨i, hi⟩ := Option.ne_none_iff_exists'.1 hne
  exact ⟨i, firstPosBy_append_some p l1 l2 i hi, firstPosBy_lt_length p l1 i hi⟩

theorem firstPosBy_junction (p : α → Bool) (l1 l2 : List α) (a : α)
    (hl1 : ∀ x ∈ l1, p x = false) (hpa : p a = true) :
    firstPosBy p (l1 ++ a :: l2) = some l1.length := by
  rw [firstPosBy_append_none p l1 _ ((firstPosBy_eq_none p l1).2 hl1)]
  simp [firstPosBy, hpa]

/-! ## Stable descending sort lemmas -/

section SortLemmas

variable {α β : Type} [LinearOrder β] (f : α → β)

theorem insDesc_perm (x : α) (l : List α) :
    List.Perm (insDesc f x l) (x :: l) := by
  induction l with
  | nil => exact List.Perm.refl _
  | cons y ys ih =>
    by_cases h : f y ≤ f x
    · rw [insDesc, if_pos h]
    · rw [insDesc, if_neg h]
      exact (List.Perm.cons y ih).trans (List.Perm.swap x y ys)

theorem sortDesc_perm (l : List α) : List.Perm (sortDesc f l) l := by
  induction l with
  | nil => exact List.Perm.refl _
  | cons x xs ih =>
    exact (insDesc_perm f x (sortDesc f xs)).trans (List.Perm.cons x ih)

theorem mem_insDesc (x a : α) (l : List α) :
    a ∈ insDesc f x l ↔ a = x ∨ a ∈ l := by
  rw [(insDesc_perm f x l).mem_iff, List.mem_cons]

theorem insDesc_pairwise {Q : α → α → Prop} (x : α) (ys : List α)
    (hys : ys.Pairwise (fun a b => f b ≤ f a ∧ (f a = f b → Q a b)))
    (hx : ∀ y ∈ ys, Q x y) :
    (insDesc f x ys).Pairwise (fun a b => f b ≤ f a ∧ (f a = f b → Q a b)) := by
  induction ys with
  | nil => simp [insDesc]
  | cons y ys ih =>
    rw [List.pairwise_cons] at hys
    obtain ⟨hy, hys'⟩ := hys
    by_cases h : f y ≤ f x
    · rw [insDesc, if_pos h, List.pairwise_cons]
      refine ⟨?_, List.pairwise_cons.2 ⟨hy, hys'⟩⟩
      intro z hz
      rcases List.mem_cons.1 hz with rfl | hz'
      · exact ⟨h, fun _ => hx z (List.mem_cons_self _ _)⟩
      · exact ⟨le_trans (hy z hz').1 h,
          fun _ => hx z (List.mem_cons_of_mem _ hz')⟩
    · rw [insDesc, if_neg h, List.pairwise_cons]
      refine ⟨?_, ih hys' (fun z hz => hx z (List.mem_cons_of_mem _ hz))⟩
      intro z hz
      rcases (mem_insDesc f x z ys).1 hz with rfl | hz'
      · exact ⟨le_of_not_le h, fun e => absurd (le_of_eq e) h⟩
      · exact hy z hz'

theorem sortDesc_pairwise {Q : α → α → Prop} (l : List α)
    (hl : l.Pairwise Q) :
    (sortDesc f l).Pairwise (fun a b => f b ≤ f a ∧ (f a = f b → Q a b)) := by
  induction l with
  | nil => simp [sortDesc]
  | cons x xs ih =>
    rw [List.pairwise_cons] at hl
    exact insDesc_pairwise f x (sortDesc f xs) (ih hl.2)
      (fun y hy => hl.1 y ((sortDesc_perm f xs).mem_iff.1 hy))

theorem insDesc_eq_cons (x : α) (l : List α) (h : ∀ y ∈ l, f y ≤ f x) :
    insDesc f x l = x :: l := by
  cases l with
  | nil => rfl
  | cons y ys => rw [insDesc, if_pos (h y (List.mem_cons_self _ _))]

theorem sortDesc_eq_self (l : List α)
    (h : l.Pairwise (fun a b => f b ≤ f a)) : sortDesc f l = l := by
  induction l with
  | nil => rfl
  | cons x xs ih =>
    rw [List.pairwise_cons] at h
    rw [sortDesc, ih h.2, insDesc_eq_cons f x xs h.1]

end SortLemmas

/-! ## dictFold lemmas -/

section DictFoldLemmas

variable {κ β : Type} [DecidableEq κ] {α : Type}

theorem mem_upsert_keys (m : Dict κ β) (k0 : κ) (f : Option β → β) (k : κ) :
    k ∈ (upsert m k0 f).map Prod.fst ↔ k ∈ m.map Prod.fst ∨ k = k0 := by
  rw [upsert_keys]
  by_cases h : k0 ∈ m.map Prod.fst
  · rw [if_pos h]
    constructor
    · exact Or.inl
    · rintro (hk | rfl)
      · exact hk
      · exact h
  · rw [if_neg h]
    simp [List.mem_append]

theorem upsert_keys_nodup (m : Dict κ β) (k : κ) (f : Option β → β)
    (hm : (m.map Prod.fst).Nodup) : ((upsert m k f).map Prod.fst).Nodup := by
  rw [upsert_keys]
  by_cases h : k ∈ m.map Prod.fst
  · rw [if_pos h]; exact hm
  · rw [if_neg h]
    rw [List.nodup_append]
    exact ⟨hm, List.nodup_singleton k,
      fun a ha hb => h (List.mem_singleton.1 hb ▸ ha)⟩

theorem dictFold_cons (key : α → κ) (f : α → Option β → β) (a : α)
    (l : List α) (m : Dict κ β) :
    dictFold key f (a :: l) m = dictFold key f l (upsert m (key a) (f a)) :=
  rfl

theorem dictFold_mem_keys (key : α → κ) (f : α → Option β → β) (l : List α)
    (m : Dict κ β) (k : κ) :
    k ∈ (dictFold key f l m).map Prod.fst ↔
      k ∈ m.map Prod.fst ∨ k ∈ l.map key := by
  induction l generalizing m with
  | nil => simp [dictFold]
  | cons a l ih =>
    rw [dictFold_cons, ih, mem_upsert_keys]
    simp [or_assoc]

theorem dictFold_nodup_keys (key : α → κ) (f : α → Option β → β)
    (l : List α) (m : Dict κ β) (hm : (m.map Prod.fst).Nodup) :
    ((dictFold key f l m).map Prod.fst).Nodup := by
  induction l generalizing m with
  | nil => exact hm
  | cons a l ih =>
    rw [dictFold_cons]
    exact ih _ (upsert_keys_nodup m (key a) (f a) hm)

theorem mem_dictFold (key : α → κ) (f : α → Option β → β) (l : List α)
    (m : Dict κ β) (p : κ × β) (hp : p ∈ dictFold key f l m) :
    p ∈ m ∨ ∃ a ∈ l, ∃ o, p = (key a, f a o) := by
  induction l generalizing m with
  | nil => exact Or.inl hp
  | cons a l ih =>
    rw [dictFold_cons] at hp
    rcases ih _ hp with h | h
    · rcases mem_upsert m (key a) (f a) p h with h2 | h2
      · exact Or.inl h2
      · obtain ⟨o, rfl⟩ := h2
        exact Or.inr ⟨a, List.mem_cons_self _ _, o, rfl⟩
    · obtain ⟨a', ha', o, rfl⟩ := h
      exact Or.inr ⟨a', List.mem_cons_of_mem _ ha', o, rfl⟩

theorem alook_dictFold (key : α → κ) (f : α → Option β → β) (l : List α)
    (m : Dict κ β) (k : κ) :
    alook (dictFold key f l m) k =
      (l.filter (fun a => key a = k)).foldl (fun ob a => some (f a ob))
        (alook m k) := by
  induction l generalizing m with
  | nil => simp [dictFold]
  | cons a l ih =>
    rw [dictFold_cons, ih]
    by_cases h : key a = k
    · rw [List.filter_cons_of_pos (by simp [h]), List.foldl_cons,
        alook_upsert, if_pos h.symm, h]
    · rw [List.filter_cons_of_neg (by simp [h]), alook_upsert,
        if_neg (fun e => h e.symm)]

theorem dictFold_keys_pairwise (key : α → κ) (f : α → Option β → β)
    (L : List α) :
    ((dictFold key f L []).map Prod.fst).Pairwise
      (fun k1 k2 => optLt (firstPosBy (fun a => key a = k1) L)
        (firstPosBy (fun a => key a = k2) L)) := by
  suffices main : ∀ (l2 l1 : List α) (m : Dict κ β), L = l1 ++ l2 →
      (∀ k, k ∈ m.map Prod.fst ↔ k ∈ l1.map key) →
      ((m.map Prod.fst).Pairwise
        (fun k1 k2 => optLt (firstPosBy (fun a => key a = k1) L)
          (firstPosBy (fun a => key a = k2) L))) →
      ((dictFold key f l2 m).map Prod.fst).Pairwise
        (fun k1 k2 => optLt (firstPosBy (fun a => key a = k1) L)
          (firstPosBy (fun a => key a = k2) L)) by
    exact main L [] [] rfl (by simp) (by simp)
  intro l2
  induction l2 with
  | nil => intro l1 m _ _ hpw; exact hpw
  | cons a l2 ih =>
    intro l1 m hL hmem hpw
    rw [dictFold_cons]
    refine ih (l1 ++ [a]) _ (by rw [hL, List.append_assoc]; rfl) ?_ ?_
    · intro k
      rw [mem_upsert_keys, hmem k]
      simp [or_assoc]
    · by_cases hin : key a ∈ m.map Prod.fst
      · rw [upsert_keys, if_pos hin]
        exact hpw
      · rw [upsert_keys, if_neg hin, List.pairwise_append]
        refine ⟨hpw, List.pairwise_singleton _ _, ?_⟩
        intro k1 hk1 k2 hk2
        rw [List.mem_singleton] at hk2
        subst hk2
        obtain ⟨x, hx, hxk⟩ := by
          have := (hmem k1).1 hk1
          simpa using this
        obtain ⟨i, hi, hilt⟩ :=
          firstPosBy_mem_prefix (fun a2 => decide (key a2 = k1)) l1 (a :: l2) x
            hx (by simp [hxk])
        have hnotin : ∀ x2 ∈ l1, ¬(key x2 = key a) := by
          intro x2 hx2 he
          exact hin ((hmem (key a)).2 (by
            refine List.mem_map.2 ⟨x2, hx2, he⟩))
        have hj := firstPosBy_junction (fun a2 => decide (key a2 = key a)) l1 l2 a
          (fun x2 hx2 => by simp [hnotin x2 hx2]) (by simp)
        rw [hL]
        rw [show (fun a2 => decide (key a2 = k1)) = fun a2 => key a2 = k1 from rfl] at hi
        rw [show (fun a2 => decide (key a2 = key a)) = fun a2 => key a2 = key a from rfl] at hj
        rw [hi, hj]
        exact hilt

end DictFoldLemmas

/-! ## RRF score lemmas -/

theorem scorePass_eq (h : String → Int) (w : ℚ) (docs : List Doc) (rank : Nat)
    (sc : Int → ℚ) (k : Int) :
    scorePass h w docs rank sc k = sc k + rrfSum h w k docs rank := by
  induction docs generalizing rank sc with
  | nil => simp [scorePass, rrfSum]
  | cons d ds ih =>
    simp only [scorePass, rrfSum]
    rw [ih]
    by_cases hd : h d.page_content = k
    · rw [if_pos hd, if_pos hd]; ring
    · rw [if_neg hd, if_neg hd]; ring

theorem rrfSum_zero_weight (h : String → Int) (k : Int) (docs : List Doc)
    (rank : Nat) : rrfSum h 0 k docs rank = 0 := by
  induction docs generalizing rank with
  | nil => simp [rrfSum]
  | cons d ds ih =>
    simp only [rrfSum, ih]
    by_cases hd : h d.page_content = k
    · rw [if_pos hd]; ring
    · rw [if_neg hd]; ring

theorem rrfSum_of_not_mem (h : String → Int) (w : ℚ) (k : Int)
    (docs : List Doc) (rank : Nat)
    (hnm : ∀ d ∈ docs, h d.page_content ≠ k) :
    rrfSum h w k docs rank = 0 := by
  induction docs generalizing rank with
  | nil => simp [rrfSum]
  | cons d ds ih =>
    simp only [rrfSum]
    rw [if_neg (hnm d (List.mem_cons_self _ _)),
      ih (rank + 1) (fun d2 hd2 => hnm d2 (List.mem_cons_of_mem _ hd2))]
    ring

theorem rrfSum_nodup (h : String → Int) (w : ℚ) (docs : List Doc)
    (hn : (docs.map (fun d => h d.page_content)).Nodup) (i rank : Nat)
    (hi : i < docs.length) :
    rrfSum h w (h docs[i].page_content) docs rank =
      w * 1 / ((rank : ℚ) + (i : ℚ) + 60 + 1) := by
  induction docs generalizing i rank with
  | nil => simp at hi
  | cons d ds ih =>
    rw [List.map_cons, List.nodup_cons] at hn
    cases i with
    | zero =>
      simp only [List.getElem_cons_zero, rrfSum, if_pos rfl]
      rw [rrfSum_of_not_mem h w _ ds (rank + 1) (fun d2 hd2 he => hn.1 (by
        rw [← he]
        exact List.mem_map.2 ⟨d2, hd2, rfl⟩))]
      push_cast
      ring
    | succ j =>
      have hj : j < ds.length := by
        simpa [List.length_cons, Nat.succ_lt_succ_iff] using hi
      simp only [List.getElem_cons_succ]
      rw [rrfSum, if_neg (fun he => hn.1 (by
        rw [he]
        exact List.mem_map.2 ⟨ds[j], List.getElem_mem _, rfl⟩)),
        ih hn.2 j (rank + 1) hj]
      push_cast
      ring

theorem rrf_scores_eq (h : String → Int) (vec bm : List Doc) (k : Int) :
    rrf_scores h vec bm k =
      rrfSum h vec_weight k vec 0 + rrfSum h bm25_weight k bm 0 := by
  unfold rrf_scores
  rw [scorePass_eq, scorePass_eq]
  ring

/-! ## Fused-order tie-break translation -/

theorem keyPos_append_some (h : String → Int) (k : Int) (l1 l2 : List Doc)
    (i : Nat) (hi : keyPos h k l1 = some i) : keyPos h k (l1 ++ l2) = some i :=
  firstPosBy_append_some _ l1 l2 i hi

theorem keyPos_append_none (h : String → Int) (k : Int) (l1 l2 : List Doc)
    (hi : keyPos h k l1 = none) :
    keyPos h k (l1 ++ l2) = (keyPos h k l2).map (· + l1.length) :=
  firstPosBy_append_none _ l1 l2 hi

theorem keyPos_lt_length (h : String → Int) (k : Int) (l : List Doc) (i : Nat)
    (hi : keyPos h k l = some i) : i < l.length :=
  firstPosBy_lt_length _ l i hi

theorem optLt_posLex (h : String → Int) (vec bm : List Doc) (k1 k2 : Int)
    (hlt : optLt (keyPos h k1 (vec ++ bm)) (keyPos h k2 (vec ++ bm))) :
    posLexLt (posPair h vec bm k1) (posPair h vec bm k2) := by
  unfold posPair
  cases hv1 : keyPos h k1 vec with
  | some i1 =>
    cases hv2 : keyPos h k2 vec with
    | some j2 =>
      left
      rw [keyPos_append_some h k1 vec bm i1 hv1,
        keyPos_append_some h k2 vec bm j2 hv2] at hlt
      exact hlt
    | none => left; exact trivial
  | none =>
    rw [keyPos_append_none h k1 vec bm hv1] at hlt
    cases hv2 : keyPos h k2 vec with
    | some j2 =>
      exfalso
      rw [keyPos_append_some h k2 vec bm j2 hv2] at hlt
      have hj2 := keyPos_lt_length h k2 vec j2 hv2
      cases hb1 : keyPos h k1 bm with
      | none => rw [hb1] at hlt; exact hlt
      | some i1 =>
        rw [hb1] at hlt
        simp only [Option.map_some', optLt] at hlt
        omega
    | none =>
      rw [keyPos_append_none h k2 vec bm hv2] at hlt
      right
      refine ⟨rfl, ?_⟩
      cases hb1 : keyPos h k1 bm with
      | none => rw [hb1] at hlt; exact absurd hlt (by simp [optLt])
      | some i1 =>
        rw [hb1] at hlt
        cases hb2 : keyPos h k2 bm with
        | none => exact trivial
        | some j2 =>
          rw [hb2] at hlt
          simp only [Option.map_some', optLt] at hlt ⊢
          omega

/-! ## C7: hybrid search output shape -/

/-- C7: for every query and `top_k`, hybrid search returns at most `top_k`
fragments, each drawn from the union of the dense and sparse result lists,
ordered by non-increasing fused score, ties broken by the fragment's
first position in the dense list and then in the sparse list (absence
counting as last). -/
theorem hybrid_search_props (h : String → Int) (vr br : String → List Doc)
    (query : String) (top_k : Nat) :
    (hybrid_search h vr br query top_k).length ≤ top_k ∧
      (∀ d ∈ hybrid_search h vr br query top_k, d ∈ vr query ∨ d ∈ br query) ∧
      (hybrid_search h vr br query top_k).Pairwise
        (fun d1 d2 =>
          rrf_scores h (vr query) (br query) (h d2.page_content) ≤
            rrf_scores h (vr query) (br query) (h d1.page_content)) ∧
      (hybrid_search h vr br query top_k).Pairwise
        (fun d1 d2 =>
          rrf_scores h (vr query) (br query) (h d1.page_content) =
              rrf_scores h (vr query) (br query) (h d2.page_content) →
            posLexLt (posPair h (vr query) (br query) (h d1.page_content))
              (posPair h (vr query) (br query) (h d2.page_content))) := by
  set vec := vr query with hvec
  set bm := br query with hbm
  set sc := rrf_scores h vec bm with hscdef
  set A := all_docs h (vec ++ bm) with hA
  set S := sortDesc (fun p => sc p.1) A with hS
  have hout : hybrid_search h vr br query top_k =
      (S.map Prod.snd).take top_k := rfl
  have hinv : ∀ p ∈ A, p.1 = h p.2.page_content ∧ p.2 ∈ vec ++ bm := by
    intro p hp
    rcases mem_dictFold _ _ _ _ p hp with hfalse | ⟨a, ha, o, rfl⟩
    · simp at hfalse
    · exact ⟨rfl, ha⟩
  have hSperm : List.Perm S A := sortDesc_perm _ A
  have hinvS : ∀ p ∈ S, p.1 = h p.2.page_content ∧ p.2 ∈ vec ++ bm :=
    fun p hp => hinv p (hSperm.mem_iff.1 hp)
  have hApw : A.Pairwise
      (fun p q => optLt (keyPos h p.1 (vec ++ bm)) (keyPos h q.1 (vec ++ bm))) := by
    have hplain := dictFold_keys_pairwise
      (fun d : Doc => h d.page_content) (fun d _ => d) (vec ++ bm)
    rw [List.pairwise_map] at hplain
    exact hplain
  have hSpw := sortDesc_pairwise (fun p => sc p.1) A hApw
  refine ⟨?_, ?_, ?_, ?_⟩
  · rw [hout, List.length_take]
    exact min_le_left _ _
  · intro d hd
    rw [hout] at hd
    have hd2 : d ∈ S.map Prod.snd := (List.take_sublist _ _).subset hd
    obtain ⟨p, hpS, rfl⟩ := List.mem_map.1 hd2
    exact List.mem_append.1 (hinvS p hpS).2
  · rw [hout]
    refine List.Pairwise.sublist (List.take_sublist _ _) ?_
    rw [List.pairwise_map]
    refine List.Pairwise.imp_of_mem ?_ hSpw
    intro p q hp hq hpq
    rw [← (hinvS p hp).1, ← (hinvS q hq).1]
    exact hpq.1
  · rw [hout]
    refine List.Pairwise.sublist (List.take_sublist _ _) ?_
    rw [List.pairwise_map]
    refine List.Pairwise.imp_of_mem ?_ hSpw
    intro p q hp hq hpq he
    rw [← (hinvS p hp).1, ← (hinvS q hq).1] at he ⊢
    exact optLt_posLex h vec bm p.1 q.1 (hpq.2 he)

/-! ## C1: fusion identity is the content hash -/

theorem all_docs_entries (h : String → Int) (l : List Doc) (p : Int × Doc)
    (hp : p ∈ all_docs h l) : p.1 = h p.2.page_content ∧ p.2 ∈ l := by
  rcases mem_dictFold _ _ _ _ p hp with hfalse | ⟨a, ha, o, rfl⟩
  · simp at hfalse
  · exact ⟨rfl, ha⟩

/-- C1 (amended): the identity under which per-ranker scores are merged and
deduplicated is the **hash of the fragment's text**: the fused output holds
exactly one fragment per distinct content hash occurring in either ranked
list (so distinct fragments with equal text are merged, not kept separate),
each output fragment comes from one of the two lists, and the fused score
of a key is the sum of both rankers' reciprocal-rank contributions to that
key. -/
theorem rrf_rerank_merges_by_content_hash (h : String → Int)
    (vec bm : List Doc) :
    ((rrf_rerank h vec bm).map (fun d => h d.page_content)).Nodup ∧
      (∀ k : Int, k ∈ (rrf_rerank h vec bm).map (fun d => h d.page_content) ↔
        k ∈ (vec ++ bm).map (fun d => h d.page_content)) ∧
      (∀ d ∈ rrf_rerank h vec bm, d ∈ vec ++ bm) ∧
      (∀ k : Int, rrf_scores h vec bm k =
        rrfSum h vec_weight k vec 0 + rrfSum h bm25_weight k bm 0) := by
  set sc := rrf_scores h vec bm with hsc
  set A := all_docs h (vec ++ bm) with hA
  set S := sortDesc (fun p => sc p.1) A with hS
  have hrr : rrf_rerank h vec bm = S.map Prod.snd := rfl
  have hSperm : List.Perm S A := sortDesc_perm _ A
  have hkeys : (rrf_rerank h vec bm).map (fun d => h d.page_content) =
      S.map Prod.fst := by
    rw [hrr, List.map_map]
    exact List.map_congr_left (fun p hp =>
      ((all_docs_entries h (vec ++ bm) p (hSperm.mem_iff.1 hp)).1).symm)
  have hAkeys : (A.map Prod.fst).Nodup :=
    dictFold_nodup_keys _ _ (vec ++ bm) [] (by simp)
  refine ⟨?_, ?_, ?_, fun k => rrf_scores_eq h vec bm k⟩
  · rw [hkeys]
    exact ((hSperm.map Prod.fst).nodup_iff).2 hAkeys
  · intro k
    rw [hkeys, (hSperm.map Prod.fst).mem_iff, hA]
    unfold all_docs
    rw [dictFold_mem_keys]
    simp
  · intro d hd
    rw [hrr] at hd
    obtain ⟨p, hpS, rfl⟩ := List.mem_map.1 hd
    exact (all_docs_entries h (vec ++ bm) p (hSperm.mem_iff.1 hpS)).2

/-- C1 (counterexample): two distinct fragments with identical text are
merged under a single key: only one fused entry survives (the later
ranker's object), so their scores are *not* accumulated under distinct
keys. -/
theorem rrf_rerank_content_hash_collision :
    dupA ≠ dupB ∧ dupA.page_content = dupB.page_content ∧
      rrf_rerank hLen [dupA] [dupB] = [dupB] := by
  refine ⟨by decide, by decide, by decide⟩

/-! ## C3: zero sparse weight and dense-only equivalence -/

theorem alook_append_some {κ β : Type} [DecidableEq κ] (l1 l2 : Dict κ β)
    (k : κ) (v : β) (hv : alook l1 k = some v) :
    alook (l1 ++ l2) k = some v := by
  induction l1 with
  | nil => simp [alook] at hv
  | cons p l1 ih =>
    obtain ⟨k', v'⟩ := p
    by_cases hk : k' = k
    · simp only [alook, if_pos hk] at hv
      simp only [List.cons_append, alook, if_pos hk]
      exact hv
    · simp only [alook, if_neg hk] at hv
      simp only [List.cons_append, alook, if_neg hk]
      exact ih hv

theorem alook_map_key {κ α : Type} [DecidableEq κ] (key : α → κ) (l : List α)
    (k : κ) :
    alook (l.map (fun a => (key a, a))) k = l.find? (fun a => key a = k) := by
  induction l with
  | nil => simp [alook]
  | cons a l ih =>
    by_cases hk : key a = k
    · rw [List.map_cons, List.find?_cons_of_pos _ (by simp [hk])]
      simp [alook, hk]
    · rw [List.map_cons, List.find?_cons_of_neg _ (by simp [hk])]
      simp only [alook, if_neg hk]
      exact ih

theorem dictFold_of_nodup {κ β α : Type} [DecidableEq κ] (key : α → κ)
    (f : α → Option β → β) (l : List α) (m : Dict κ β)
    (hn : (l.map key).Nodup) (hd : ∀ k ∈ m.map Prod.fst, k ∉ l.map key) :
    dictFold key f l m = m ++ l.map (fun a => (key a, f a none)) := by
  induction l generalizing m with
  | nil => simp [dictFold]
  | cons a l ih =>
    rw [List.map_cons, List.nodup_cons] at hn
    have hknot : key a ∉ m.map Prod.fst := fun hmem =>
      hd (key a) hmem (by simp)
    rw [dictFold_cons, upsert_of_not_mem m (key a) (f a) hknot,
      ih (m ++ [(key a, f a none)]) hn.2 ?_]
    · simp
    · intro k hk
      rw [List.map_append, List.mem_append] at hk
      rcases hk with hk | hk
      · intro hmem
        exact hd k hk (List.mem_cons_of_mem _ hmem)
      · simp only [List.map_cons, List.map_nil, List.mem_singleton] at hk
        subst hk
        exact hn.1

theorem all_docs_dense_struct (h : String → Int) (vec bm : List Doc)
    (hn : (vec.map (fun d => h d.page_content)).Nodup)
    (hbm : ∀ d ∈ bm, ∀ d2 ∈ vec,
      h d.page_content = h d2.page_content → d = d2) :
    ∃ rest : Dict Int Doc,
      all_docs h (vec ++ bm) =
        vec.map (fun d => (h d.page_content, d)) ++ rest ∧
      ∀ p ∈ rest, ∀ d2 ∈ vec, h d2.page_content ≠ p.1 := by
  set V := vec.map (fun d => (h d.page_content, d)) with hV
  have hVfold : dictFold (fun d : Doc => h d.page_content)
      (fun d _ => d) vec [] = V := by
    rw [dictFold_of_nodup _ _ vec [] hn (by simp)]
    simp [hV]
  have hsplit : all_docs h (vec ++ bm) =
      List.foldl (fun m d => upsert m (h d.page_content) (fun _ => d)) V bm := by
    unfold all_docs dictFold
    rw [List.foldl_append]
    unfold dictFold at hVfold
    rw [hVfold]
  suffices aux : ∀ (bs : List Doc) (rest : Dict Int Doc),
      (∀ d ∈ bs, ∀ d2 ∈ vec, h d.page_content = h d2.page_content → d = d2) →
      (∀ p ∈ rest, ∀ d2 ∈ vec, h d2.page_content ≠ p.1) →
      ∃ rest2,
        List.foldl (fun m d => upsert m (h d.page_content) (fun _ => d))
          (V ++ rest) bs = V ++ rest2 ∧
        (∀ p ∈ rest2, ∀ d2 ∈ vec, h d2.page_content ≠ p.1) by
    obtain ⟨rest2, heq, hrest⟩ := aux bm [] hbm (by simp)
    refine ⟨rest2, ?_, hrest⟩
    rw [hsplit, ← heq, List.append_nil]
  intro bs
  induction bs with
  | nil =>
    intro rest hb hrest
    exact ⟨rest, rfl, hrest⟩
  | cons b bs ih =>
    intro rest hb hrest
    rw [List.foldl_cons]
    by_cases hbv : ∃ d2 ∈ vec, h b.page_content = h d2.page_content
    · have hfind : (vec.find?
          (fun d => h d.page_content = h b.page_content)).isSome := by
        rw [List.find?_isSome]
        obtain ⟨d2, hd2, he⟩ := hbv
        exact ⟨d2, hd2, by simp [he.symm]⟩
      obtain ⟨d', hd'⟩ := Option.isSome_iff_exists.1 hfind
      have hd'vec : d' ∈ vec := List.mem_of_find?_eq_some hd'
      have hd'key : h d'.page_content = h b.page_content := by
        have := List.find?_some hd'
        simpa using this
      have hbd' : b = d' :=
        hb b (List.mem_cons_self _ _) d' hd'vec hd'key.symm
      have halookV : alook V (h b.page_content) = some d' := by
        rw [hV, alook_map_key]
        exact hd'
      have halook : alook (V ++ rest) (h b.page_content) = some d' :=
        alook_append_some V rest _ d' halookV
      rw [upsert_eq_self (V ++ rest) (h b.page_content) _ d' halook hbd']
      exact ih rest (fun d hd => hb d (List.mem_cons_of_mem _ hd)) hrest
    · push_neg at hbv
      have hknot : h b.page_content ∉ V.map Prod.fst := by
        rw [hV, List.map_map]
        intro hmem
        obtain ⟨d2, hd2, he⟩ := List.mem_map.1 hmem
        exact hbv d2 hd2 (by simpa using he.symm)
      rw [upsert_append_left V rest _ _ hknot]
      refine ih (upsert rest (h b.page_content) (fun _ => b))
        (fun d hd => hb d (List.mem_cons_of_mem _ hd)) ?_
      intro p hp
      rcases mem_upsert rest (h b.page_content) (fun _ => b) p hp with hp' | hp'
      · exact hrest p hp'
      · obtain ⟨o, rfl⟩ := hp'
        intro d2 hd2 he
        exact hbv d2 hd2 (by simpa using he.symm)

/-- C3 (amended): with the reference weights (dense 1.0, sparse 0), every
fragment whose content hash appears only in the sparse list gets fused
score exactly 0; and when the dense list has at least `top_k` hits with
pairwise distinct identity keys **and every sparse hit that shares an
identity key with a dense hit is that same dense fragment**, hybrid search
returns exactly the first `top_k` dense hits in dense order.  (Without the
extra condition a sparse object with equal text replaces the dense object
in the merge dict — see the counterexample.) -/
theorem hybrid_search_dense_only (h : String → Int) (vr br : String → List Doc)
    (query : String) (top_k : Nat)
    (hn : ((vr query).map (fun d => h d.page_content)).Nodup)
    (hlen : top_k ≤ (vr query).length)
    (hbm : ∀ d ∈ br query, ∀ d2 ∈ vr query,
      h d.page_content = h d2.page_content → d = d2) :
    (∀ d ∈ br query, (∀ d2 ∈ vr query, h d.page_content ≠ h d2.page_content) →
      rrf_scores h (vr query) (br query) (h d.page_content) = 0) ∧
    hybrid_search h vr br query top_k = (vr query).take top_k := by
  set vec := vr query with hvec
  set bm := br query with hbm2
  constructor
  · intro d hd hne
    rw [rrf_scores_eq,
      rrfSum_of_not_mem h vec_weight _ vec 0
        (fun d2 hd2 he => hne d2 hd2 he.symm),
      show bm25_weight = (0 : ℚ) from rfl, rrfSum_zero_weight]
    ring
  · obtain ⟨rest, hstruct, hrest⟩ := all_docs_dense_struct h vec bm hn hbm
    set sc := rrf_scores h vec bm with hsc
    have hVscore : ∀ (i : Nat) (hi : i < vec.length),
        sc (h vec[i].page_content) =
          vec_weight * 1 / ((0 : ℚ) + (i : ℚ) + 60 + 1) := by
      intro i hi
      rw [hsc, rrf_scores_eq, rrfSum_nodup h vec_weight vec hn i 0 hi,
        show bm25_weight = (0 : ℚ) from rfl, rrfSum_zero_weight]
      push_cast
      ring
    have hRscore : ∀ p ∈ rest, sc p.1 = 0 := by
      intro p hp
      rw [hsc, rrf_scores_eq,
        rrfSum_of_not_mem h vec_weight p.1 vec 0 (hrest p hp),
        show bm25_weight = (0 : ℚ) from rfl, rrfSum_zero_weight]
      ring
    have hpw : (vec.map (fun d => (h d.page_content, d)) ++ rest).Pairwise
        (fun a b => sc b.1 ≤ sc a.1) := by
      rw [List.pairwise_append]
      refine ⟨?_, ?_, ?_⟩
      · rw [List.pairwise_iff_getElem]
        intro i j hi hj hij
        have hi' : i < vec.length := by simpa using hi
        have hj' : j < vec.length := by simpa using hj
        simp only [List.getElem_map]
        rw [hVscore i hi', hVscore j hj',
          show vec_weight = (1 : ℚ) from rfl]
        rw [one_mul]
        refine one_div_le_one_div_of_le (by positivity) ?_
        have hc : (i : ℚ) ≤ (j : ℚ) := by exact_mod_cast le_of_lt hij
        linarith
      · refine List.pairwise_of_forall_mem_list ?_
        intro a ha b hb
        rw [hRscore a ha, hRscore b hb]
      · intro a ha b hb
        rw [hRscore b hb]
        obtain ⟨d, hd, rfl⟩ := List.mem_map.1 ha
        obtain ⟨i, hi, rfl⟩ := List.mem_iff_getElem.1 hd
        have : sc (h vec[i].page_content) =
            vec_weight * 1 / ((0 : ℚ) + (i : ℚ) + 60 + 1) := hVscore i hi
        simp only [this, show vec_weight = (1 : ℚ) from rfl, one_mul]
        positivity
    have hVsnd : (vec.map (fun d => (h d.page_content, d))).map Prod.snd
        = vec := by
      rw [List.map_map]
      exact (List.map_congr_left (fun a _ => rfl)).trans (List.map_id _)
    have hout : hybrid_search h vr br query top_k =
        ((sortDesc (fun p => sc p.1) (all_docs h (vec ++ bm))).map
          Prod.snd).take top_k := rfl
    rw [hout, hstruct, sortDesc_eq_self _ _ hpw, List.map_append, hVsnd,
      List.take_append_of_le_length hlen]

/-- C3 (witness): a concrete dense-only equivalence instance with two dense
hits of distinct keys and an unrelated sparse hit. -/
theorem hybrid_search_dense_only_witness :
    hybrid_search hLen (fun _ => [docA, docB]) (fun _ => [docC]) "q" 2 =
      [docA, docB] := by
  have hmain := (hybrid_search_dense_only hLen (fun _ => [docA, docB])
    (fun _ => [docC]) "q" 2 (by decide) (by decide) (by decide)).2
  rw [hmain]
  rfl

/-- C3 (counterexample): the dense list has `top_k = 1` hits with distinct
keys, yet hybrid search does not return the dense hit: a sparse fragment
with the same text (same identity key) but different metadata replaces it
in the merge dict, so the output object is the sparse one. -/
theorem hybrid_search_dense_only_fails_on_equal_text :
    (([dupA] : List Doc).map (fun d => hLen d.page_content)).Nodup ∧
      1 ≤ ([dupA] : List Doc).length ∧
      hybrid_search hLen (fun _ => [dupA]) (fun _ => [dupB]) "q" 1 = [dupB] ∧
      dupB ≠ dupA := by
  refine ⟨by decide, by decide, by decide, by decide⟩

/-! ## C2: metadata-filtered search raises -/

/-- C2 (code evaluated at the failing input): with one retrieval candidate
and a well-formed non-empty scalar filter, `metadata_filtered_search`
raises `AttributeError` instead of filtering — the loop iterates over the
builtin `filter` function, not the `filters` parameter. -/
theorem metadata_filtered_search_raises :
    metadata_filtered_search hLen (fun _ => [cookDoc]) (fun _ => [])
      "鱼香肉丝怎么做" [("category", MetaVal.str "荤菜")] 5 =
    Except.error
      "AttributeError: 'builtin_function_or_method' object has no attribute 'items'" := by
  rfl

/-! ## C4: difficulty labelling -/

theorem startsWithChars_star_iff (k : Nat) (s : List Char) :
    startsWithChars s (List.replicate k '★') = true ↔ k ≤ leadRun s := by
  induction k generalizing s with
  | zero => simp [startsWithChars]
  | succ k ih =>
    cases s with
    | nil =>
      simp only [List.replicate, startsWithChars, leadRun]
      constructor
      · intro h; exact absurd h (by simp)
      · intro h; exact absurd h (by omega)
    | cons c cs =>
      simp only [List.replicate, startsWithChars, Bool.and_eq_true, decide_eq_true_eq]
      by_cases hc : c = '★'
      · simp [hc, leadRun, ih, Nat.succ_le_succ_iff]
      · simp [hc, leadRun]

theorem occursIn_star_iff (k : Nat) (s : List Char) :
    occursIn (List.replicate k '★') s = true ↔ k ≤ maxStarRun s := by
  induction s with
  | nil =>
    simp [occursIn, maxStarRun, List.isEmpty_iff, Nat.le_zero,
      List.replicate_eq_nil_iff]
  | cons c cs ih =>
    simp [occursIn, maxStarRun, startsWithChars_star_iff, ih, le_max_iff]

/-- C4 (amended): the difficulty label is determined by the longest
contiguous run of the glyph `★` in the text: run lengths 1–5 map to the five
ordered labels, longer runs to the hardest label, and run length 0 to the
unknown label. -/
theorem difficultyOf_eq_runLabel (content : String) :
    difficultyOf content = runLabel (maxStarRun content.data) := by
  have h5 : ("★★★★★" : String).data = List.replicate 5 '★' := by decide
  have h4 : ("★★★★" : String).data = List.replicate 4 '★' := by decide
  have h3 : ("★★★" : String).data = List.replicate 3 '★' := by decide
  have h2 : ("★★" : String).data = List.replicate 2 '★' := by decide
  have h1 : ("★" : String).data = List.replicate 1 '★' := by decide
  unfold difficultyOf strContains runLabel
  rw [h5, h4, h3, h2, h1]
  by_cases c5 : 5 ≤ maxStarRun content.data
  · rw [if_pos ((occursIn_star_iff 5 content.data).2 c5), if_pos c5]
  · rw [if_neg (fun h => c5 ((occursIn_star_iff 5 content.data).1 h)), if_neg c5]
    by_cases c4 : 4 ≤ maxStarRun content.data
    · rw [if_pos ((occursIn_star_iff 4 content.data).2 c4), if_pos c4]
    · rw [if_neg (fun h => c4 ((occursIn_star_iff 4 content.data).1 h)), if_neg c4]
      by_cases c3 : 3 ≤ maxStarRun content.data
      · rw [if_pos ((occursIn_star_iff 3 content.data).2 c3), if_pos c3]
      · rw [if_neg (fun h => c3 ((occursIn_star_iff 3 content.data).1 h)), if_neg c3]
        by_cases c2 : 2 ≤ maxStarRun content.data
        · rw [if_pos ((occursIn_star_iff 2 content.data).2 c2), if_pos c2]
        · rw [if_neg (fun h => c2 ((occursIn_star_iff 2 content.data).1 h)), if_neg c2]
          by_cases c1 : 1 ≤ maxStarRun content.data
          · rw [if_pos ((occursIn_star_iff 1 content.data).2 c1), if_pos c1]
          · rw [if_neg (fun h => c1 ((occursIn_star_iff 1 content.data).1 h)), if_neg c1]

/-- C4 (counterexample): a text with exactly five occurrences of the glyph,
arranged non-contiguously, receives the easiest label `简单`, not the hardest
label `非常困难` — the code tests contiguous runs, not occurrence counts. -/
theorem difficulty_five_scattered_stars :
    starCount "★a★b★c★d★e" = 5 ∧ difficultyOf "★a★b★c★d★e" = "简单" ∧
      difficultyOf "★a★b★c★d★e" ≠ "非常困难" := by
  refine ⟨by decide, by decide, by decide⟩

/-! ## C10: query router fail-safety -/

/-- C10: for every textual reply, the router trims and lower-cases it,
returns it when it is one of the four valid labels, and returns `general`
for any other reply; the result is always one of the four labels (fail-safe,
total). -/
theorem query_router_fail_safe (response : String) :
    query_router response ∈ valid_routes ∧
      (pyLower (pyStrip response) ∈ valid_routes →
        query_router response = pyLower (pyStrip response)) ∧
      (pyLower (pyStrip response) ∉ valid_routes →
        query_router response = "general") := by
  unfold query_router
  by_cases h : pyLower (pyStrip response) ∈ valid_routes
  · rw [if_pos h]
    exact ⟨h, fun _ => rfl, fun hn => absurd h hn⟩
  · rw [if_neg h]
    exact ⟨by decide, fun hm => absurd hm h, fun _ => rfl⟩

/-- C10 (witness): a reply that is a valid label up to spacing and case is
returned normalized; a garbled reply falls back to `general`. -/
theorem query_router_fail_safe_witness :
    query_router "  LIST " = "list" ∧ query_router "乱码!!" = "general" := by
  have h1 := (query_router_fail_safe "  LIST ").2.1 (by decide)
  have h2 := (query_router_fail_safe "乱码!!").2.2 (by decide)
  exact ⟨by rw [h1]; decide, h2⟩

/-! ## Additional dict lemmas for the splitter -/

section DictLemmas2

variable {κ β : Type} [DecidableEq κ]

theorem alook_eq_none_iff (m : Dict κ β) (k : κ) :
    alook m k = none ↔ k ∉ m.map Prod.fst := by
  induction m with
  | nil => simp [alook]
  | cons p m ih =>
    obtain ⟨k', v⟩ := p
    by_cases hk : k' = k
    · subst hk
      simp [alook]
    · simp [alook, hk, ih, Ne.symm hk]

theorem alook_append_none_left (l1 l2 : Dict κ β) (k : κ)
    (h : alook l1 k = none) : alook (l1 ++ l2) k = alook l2 k := by
  induction l1 with
  | nil => simp
  | cons p l1 ih =>
    obtain ⟨k', v⟩ := p
    by_cases hk : k' = k
    · simp [alook, hk] at h
    · simp only [alook, if_neg hk] at h
      simp only [List.cons_append, alook, if_neg hk]
      exact ih h

theorem alook_append_single_ne (l1 : Dict κ β) (e : κ × β) (k : κ)
    (hk : k ≠ e.1) : alook (l1 ++ [e]) k = alook l1 k := by
  cases he : alook l1 k with
  | some v => exact alook_append_some l1 [e] k v he
  | none =>
    rw [alook_append_none_left l1 [e] k he]
    obtain ⟨k', v⟩ := e
    simp only [alook]
    rw [if_neg (fun h2 => hk (by simp [h2.symm]))]

end DictLemmas2

theorem freshId_injective (m n : Nat) (he : freshId m = freshId n) :
    m = n := by
  have hlen : (freshId m).data.length = (freshId n).data.length := by rw [he]
  simp only [freshId, List.length_replicate] at hlen
  omega

/-! ## C6: fallback law for unsplittable documents -/

/-- C6: for every document whose structural splitting raises, `splitOne`
produces exactly the single whole-document fragment `[d]` (its text is the
document's full text since it *is* the document), and whenever such a
document is among the documents being split, the overall split output
contains its block — the document is never dropped. -/
theorem split_error_fallback (splitter : String → Except String (List Doc))
    (st : SplitState) (docs : List Doc) (d : Doc) (e : String)
    (he : splitter d.page_content = Except.error e) :
    (∀ st0 : SplitState, splitOne splitter st0 d = (st0, [d])) ∧
      (d ∈ docs → ∃ pre post,
        (markdown_header_split splitter docs st).2 = pre ++ [d] ++ post) := by
  have hfb : ∀ st0 : SplitState, splitOne splitter st0 d = (st0, [d]) := by
    intro st0
    unfold splitOne
    rw [he]
  refine ⟨hfb, ?_⟩
  induction docs generalizing st with
  | nil => intro hmem; cases hmem
  | cons d0 ds ih =>
    intro hmem
    have hcons : (markdown_header_split splitter (d0 :: ds) st).2 =
        (splitOne splitter st d0).2 ++
          (markdown_header_split splitter ds (splitOne splitter st d0).1).2 :=
      rfl
    rcases List.mem_cons.1 hmem with rfl | hmem2
    · refine ⟨[], (markdown_header_split splitter ds
        (splitOne splitter st d).1).2, ?_⟩
      rw [hcons, hfb st]
      simp
    · obtain ⟨pre, post, hsp⟩ := ih (splitOne splitter st d0).1 hmem2
      refine ⟨(splitOne splitter st d0).2 ++ pre, post, ?_⟩
      rw [hcons, hsp]
      simp [List.append_assoc]

/-- C6 (witness): a concrete unsplittable document yields exactly its own
single whole-text fragment and survives into the split output. -/
theorem split_error_fallback_witness :
    splitOne errSplitter ⟨0, []⟩ badDoc = (⟨0, []⟩, [badDoc]) ∧
      (∃ pre post,
        (markdown_header_split errSplitter [parentDoc, badDoc] ⟨0, []⟩).2 =
          pre ++ [badDoc] ++ post) := by
  have h := split_error_fallback errSplitter ⟨0, []⟩ [parentDoc, badDoc]
    badDoc "boom" rfl
  exact ⟨h.1 ⟨0, []⟩, h.2 (by decide)⟩

/-! ## C5: fragment metadata and identity -/

theorem splitLoop_spec (pid : MetaVal) (pm : Dict String MetaVal) :
    ∀ (cs : List Doc) (i0 : Nat) (st : SplitState),
      (∀ n, st.counter ≤ n → alook st.parent_child_map (freshId n) = none) →
      (splitLoop pid pm cs i0 st).1.counter = st.counter + cs.length ∧
      (splitLoop pid pm cs i0 st).2.length = cs.length ∧
      (∀ n : Nat,
        alook (splitLoop pid pm cs i0 st).1.parent_child_map (freshId n) =
          if st.counter ≤ n ∧ n < st.counter + cs.length then some pid
          else alook st.parent_child_map (freshId n)) ∧
      (∀ (j : Nat) (hj : j < cs.length),
        ∃ hj2 : j < (splitLoop pid pm cs i0 st).2.length,
          ((splitLoop pid pm cs i0 st).2[j]).page_content =
            (cs[j]).page_content ∧
          alook ((splitLoop pid pm cs i0 st).2[j]).metadata "chunk_id" =
            some (.str (freshId (st.counter + j))) ∧
          alook ((splitLoop pid pm cs i0 st).2[j]).metadata "parent_id" =
            some pid ∧
          alook ((splitLoop pid pm cs i0 st).2[j]).metadata "doc_type" =
            some (.str "child") ∧
          alook ((splitLoop pid pm cs i0 st).2[j]).metadata "chunk_index" =
            some (.int (i0 + j))) := by
  intro cs
  induction cs with
  | nil =>
    intro i0 st hfresh
    refine ⟨by simp [splitLoop], by simp [splitLoop], ?_, ?_⟩
    · intro n
      rw [if_neg (by simp only [List.length_nil]; omega)]
      rfl
    · intro j hj
      simp at hj
  | cons c cs ih =>
    intro i0 st hfresh
    cases hrec : splitLoop pid pm cs (i0 + 1)
        ⟨st.counter + 1,
         upsert st.parent_child_map (freshId st.counter) (fun _ => pid)⟩ with
    | mk st2 rest =>
      have hfresh1 : ∀ n, st.counter + 1 ≤ n →
          alook (upsert st.parent_child_map (freshId st.counter)
            (fun _ => pid)) (freshId n) = none := by
        intro n hn
        rw [alook_upsert,
          if_neg (fun he => by have := freshId_injective n st.counter he; omega)]
        exact hfresh n (by omega)
      have ihall := ih (i0 + 1)
        ⟨st.counter + 1,
         upsert st.parent_child_map (freshId st.counter) (fun _ => pid)⟩ hfresh1
      rw [hrec] at ihall
      dsimp only at ihall
      obtain ⟨ihcnt, ihlen, ihmap, ihj⟩ := ihall
      have hSL : splitLoop pid pm (c :: cs) i0 st =
          (st2,
           { page_content := c.page_content,
             metadata :=
               upsert (upsert (upsert (upsert (upsert
                 (dupdate c.metadata pm) "dish_name"
                   (fun _ => (alook pm "dish_name").getD (.str "未知菜品")))
                 "chunk_id" (fun _ => .str (freshId st.counter)))
                 "parent_id" (fun _ => pid))
                 "doc_type" (fun _ => .str "child"))
                 "chunk_index" (fun _ => .int i0) } ::
           rest) := by
        simp only [splitLoop, hrec]
      rw [hSL]
      refine ⟨?_, ?_, ?_, ?_⟩
      · show st2.counter = st.counter + (c :: cs).length
        simp only [List.length_cons]
        omega
      · show ((_ : Doc) :: rest).length = (c :: cs).length
        simp only [List.length_cons, ihlen]
      · intro n
        show alook st2.parent_child_map (freshId n) = _
        rw [ihmap n]
        by_cases hc2 : st.counter + 1 ≤ n ∧ n < st.counter + 1 + cs.length
        · rw [if_pos hc2,
            if_pos (by simp only [List.length_cons]; omega)]
        · rw [if_neg hc2, alook_upsert]
          by_cases hc3 : n = st.counter
          · rw [if_pos (by rw [hc3]),
              if_pos (by simp only [List.length_cons]; omega)]
          · rw [if_neg (fun he => hc3 (freshId_injective n st.counter he)),
              if_neg (by simp only [List.length_cons]; omega)]
      · intro j hj
        cases j with
        | zero =>
          refine ⟨by simp only [List.length_cons]; omega, ?_, ?_, ?_, ?_, ?_⟩
          · simp
          · simp only [List.getElem_cons_zero]
            rw [alook_upsert, if_neg (by decide), alook_upsert,
              if_neg (by decide), alook_upsert, if_neg (by decide),
              alook_upsert, if_pos rfl, Nat.add_zero]
          · simp only [List.getElem_cons_zero]
            rw [alook_upsert, if_neg (by decide), alook_upsert,
              if_neg (by decide), alook_upsert, if_pos rfl]
          · simp only [List.getElem_cons_zero]
            rw [alook_upsert, if_neg (by decide), alook_upsert, if_pos rfl]
          · simp only [List.getElem_cons_zero]
            rw [alook_upsert, if_pos rfl]
            norm_num
        | succ j2 =>
          have hj2 : j2 < cs.length := by
            simp only [List.length_cons] at hj
            omega
          obtain ⟨hlt, hpage, hcid, hpid, htype, hidx⟩ := ihj j2 hj2
          refine ⟨by simp only [List.length_cons]; omega, ?_, ?_, ?_, ?_, ?_⟩
          · simp only [List.getElem_cons_succ]
            exact hpage
          · simp only [List.getElem_cons_succ]
            rw [show st.counter + (j2 + 1) = st.counter + 1 + j2 by omega]
            exact hcid
          · simp only [List.getElem_cons_succ]
            exact hpid
          · simp only [List.getElem_cons_succ]
            exact htype
          · simp only [List.getElem_cons_succ]
            rw [show ((i0 : Int) + ((j2 : Nat) + 1 : Nat)) =
              ((i0 + 1 : Nat) : Int) + (j2 : Nat) by push_cast; ring]
            exact hidx

/-- C5 (amended): a fragment produced by a **successful** structural split
receives a freshly generated unique id (drawn from an injective supply),
written into its `chunk_id` metadata and recorded in the fragment→document
map together with the owning document's id; it also carries the parent id,
the document-type marker switched to `child`, and its within-parent position
index.  However: the fallback fragment of an unsplittable document is the
parent document object itself and leaves the splitter state (and so the
map) untouched, and `chunk_documents` afterwards overwrites every
fragment's `chunk_id` with its sequential position in the overall chunk
list, so the generated ids survive only as map keys. -/
theorem split_fragment_identity (splitter : String → Except String (List Doc))
    (doc : Doc) (cs : List Doc) (pid : MetaVal) (st : SplitState)
    (hok : splitter doc.page_content = Except.ok cs)
    (hpid : alook doc.metadata "parent_id" = some pid)
    (hfresh : ∀ n, st.counter ≤ n →
      alook st.parent_child_map (freshId n) = none) :
    ((splitOne splitter st doc).2.length = cs.length ∧
      ∀ (j : Nat) (hj : j < cs.length),
        ∃ hj2 : j < (splitOne splitter st doc).2.length,
          ((splitOne splitter st doc).2[j]).page_content =
            (cs[j]).page_content ∧
          alook ((splitOne splitter st doc).2[j]).metadata "chunk_id" =
            some (.str (freshId (st.counter + j))) ∧
          alook ((splitOne splitter st doc).2[j]).metadata "parent_id" =
            some pid ∧
          alook ((splitOne splitter st doc).2[j]).metadata "doc_type" =
            some (.str "child") ∧
          alook ((splitOne splitter st doc).2[j]).metadata "chunk_index" =
            some (.int j)) ∧
    (∀ m n : Nat, freshId m = freshId n → m = n) ∧
    (∀ n : Nat,
      alook (splitOne splitter st doc).1.parent_child_map (freshId n) =
        if st.counter ≤ n ∧ n < st.counter + cs.length then some pid
        else alook st.parent_child_map (freshId n)) ∧
    (∀ (d2 : Doc) (e : String) (st2 : SplitState),
      splitter d2.page_content = Except.error e →
      splitOne splitter st2 d2 = (st2, [d2])) ∧
    (∀ (docs : List Doc) (st0 : SplitState) (d0 : Doc) (ds : List Doc),
      docs = d0 :: ds →
      ∃ st2 chunks,
        chunk_documents splitter docs st0 = Except.ok (st2, chunks) ∧
        chunks.length = (markdown_header_split splitter docs st0).2.length ∧
        ∀ (j : Nat) (hj : j < chunks.length),
          ∃ hj2 : j < (markdown_header_split splitter docs st0).2.length,
            (chunks[j]).page_content =
              (((markdown_header_split splitter docs st0).2)[j]).page_content ∧
            alook (chunks[j]).metadata "chunk_id" = some (.int j)) := by
  have hso : splitOne splitter st doc = splitLoop pid doc.metadata cs 0 st := by
    unfold splitOne
    rw [hok, hpid]
  obtain ⟨hcnt, hlen, hmap, hj⟩ := splitLoop_spec pid doc.metadata cs 0 st hfresh
  refine ⟨⟨by rw [hso]; exact hlen, ?_⟩, freshId_injective, ?_, ?_, ?_⟩
  · intro j hjlt
    obtain ⟨hj2, hpage, hcid, hpidj, htype, hidx⟩ := hj j hjlt
    rw [hso]
    refine ⟨hj2, hpage, hcid, hpidj, htype, ?_⟩
    rw [hidx]
    norm_num
  · intro n
    rw [hso]
    exact hmap n
  · intro d2 e st2 he
    unfold splitOne
    rw [he]
  · intro docs st0 d0 ds hdocs
    subst hdocs
    cases hmh : markdown_header_split splitter (d0 :: ds) st0 with
    | mk stm chs =>
      refine ⟨stm, chs.enum.map (fun p =>
        { p.2 with
          metadata :=
            upsert (upsert p.2.metadata "chunk_id" (fun _ => .int p.1))
              "chunk_size" (fun _ => .int p.2.page_content.length) }), ?_, ?_, ?_⟩
      · simp only [chunk_documents, hmh]
      · simp [List.enum_length]
      · intro j hjlt
        have hjc : j < chs.length := by
          simpa [List.enum_length] using hjlt
        have hje : j < chs.enum.length := by simpa [List.enum_length] using hjc
        refine ⟨hjc, ?_, ?_⟩
        · rw [List.getElem_map]
          simp [List.getElem_enum]
        · rw [List.getElem_map]
          have henum : chs.enum[j] = (j, chs[j]) := List.getElem_enum ..
          rw [henum]
          rw [alook_upsert, if_neg (by decide), alook_upsert, if_pos rfl]

/-- C5 (witness): on a concrete corpus, the structured split of `parentDoc`
produces one fragment and records its generated id in the
fragment→document map, bound to the parent's id. -/
theorem split_fragment_identity_witness :
    (splitOne toySplitter ⟨0, []⟩ parentDoc).2.length = 1 ∧
      alook (splitOne toySplitter ⟨0, []⟩ parentDoc).1.parent_child_map
        (freshId 0) = some (MetaVal.str "p1") := by
  have h := split_fragment_identity toySplitter parentDoc
    [({ page_content := "# 标题\n正文",
        metadata := [("主标题", .str "标题")] } : Doc)]
    (MetaVal.str "p1") ⟨0, []⟩ rfl rfl (fun n _ => rfl)
  refine ⟨h.1.1, ?_⟩
  rw [h.2.2.1 0, if_pos (by decide)]

/-- C5 (counterexample): on a two-document corpus where the second document
is unsplittable, `split` emits two fragments but the fragment→document map
holds a single entry (keyed by the first fragment's generated id); the
fallback fragment keeps `doc_type = "parent"`, gets no position index, and
both fragments end with sequential integer `chunk_id`s instead of generated
unique ids. -/
theorem chunk_documents_fallback_not_child :
    ((chunk_documents toySplitter [parentDoc, badDoc] ⟨0, []⟩).map (fun p =>
      (p.1.parent_child_map,
       p.2.map (fun c => alook c.metadata "doc_type"),
       p.2.map (fun c => alook c.metadata "chunk_id"),
       p.2.map (fun c => alook c.metadata "chunk_index")))) =
    Except.ok ([("u", MetaVal.str "p1")],
      [some (MetaVal.str "child"), some (MetaVal.str "parent")],
      [some (MetaVal.int 0), some (MetaVal.int 1)],
      [some (MetaVal.int 0), none]) := by
  rfl

/-! ## C8: parent resolution -/

theorem alook_some_mem {κ β : Type} [DecidableEq κ] (m : Dict κ β) (k : κ)
    (v : β) (hv : alook m k = some v) : (k, v) ∈ m := by
  induction m with
  | nil => simp [alook] at hv
  | cons p m ih =>
    obtain ⟨k', v'⟩ := p
    by_cases hk : k' = k
    · subst hk
      simp only [alook, eq_self_iff_true, if_true, Option.some_inj] at hv
      subst hv
      exact List.mem_cons_self _ _
    · simp only [alook, if_neg hk] at hv
      exact List.mem_cons_of_mem _ (ih hv)

theorem resolve_foldl_split (documents : List Doc) :
    ∀ (chunks : List Doc) (r0 : Dict MetaVal Nat) (m0 : Dict MetaVal Doc),
      chunks.foldl (resolveStep documents) (r0, m0) =
        ((pidSeq chunks).foldl
          (fun r p => upsert r p (fun o => o.getD 0 + 1)) r0,
         (pidSeq chunks).foldl (fun m p =>
           if (alook m p).isSome then m
           else
             match documents.find? (fun d => d.mget "parent_id" = some p) with
             | some doc => upsert m p (fun _ => doc)
             | none => m) m0) := by
  intro chunks
  induction chunks with
  | nil => intro r0 m0; rfl
  | cons c chunks ih =>
    intro r0 m0
    rw [List.foldl_cons]
    cases hg : c.mget "parent_id" with
    | none =>
      have hpid : pidSeq (c :: chunks) = pidSeq chunks := by
        simp [pidSeq, List.filterMap_cons, hg]
      have hstep : resolveStep documents (r0, m0) c = (r0, m0) := by
        unfold resolveStep
        rw [hg]
      rw [hstep, hpid, ih]
    | some pid =>
      by_cases ht : pid.truthy
      · have hpid : pidSeq (c :: chunks) = pid :: pidSeq chunks := by
          simp [pidSeq, List.filterMap_cons, hg, ht]
        have hstep : resolveStep documents (r0, m0) c =
            (upsert r0 pid (fun o => o.getD 0 + 1),
             if (alook m0 pid).isSome then m0
             else
               match documents.find?
                   (fun d => d.mget "parent_id" = some pid) with
               | some doc => upsert m0 pid (fun _ => doc)
               | none => m0) := by
          unfold resolveStep
          rw [hg]
          simp only [ht, if_true]
        rw [hstep, hpid, ih, List.foldl_cons, List.foldl_cons]
      · have hpid : pidSeq (c :: chunks) = pidSeq chunks := by
          simp [pidSeq, List.filterMap_cons, hg, ht]
        have hstep : resolveStep documents (r0, m0) c = (r0, m0) := by
          unfold resolveStep
          rw [hg]
          simp [ht]
        rw [hstep, hpid, ih]

theorem foldl_bump_getD (xs : List MetaVal) (o : Option Nat) :
    (xs.foldl (fun ob (_ : MetaVal) => some (ob.getD 0 + 1)) o).getD 0 =
      o.getD 0 + xs.length := by
  induction xs generalizing o with
  | nil => simp
  | cons x xs ih =>
    rw [List.foldl_cons, ih]
    simp only [Option.getD_some, List.length_cons]
    omega

theorem dm_fold_entries (documents : List Doc) :
    ∀ (l : List MetaVal) (m0 : Dict MetaVal Doc) (p : MetaVal × Doc),
      p ∈ l.foldl (fun m q =>
        if (alook m q).isSome then m
        else
          match documents.find? (fun d => d.mget "parent_id" = some q) with
          | some doc => upsert m q (fun _ => doc)
          | none => m) m0 →
      p ∈ m0 ∨ (p.2.mget "parent_id" = some p.1 ∧ p.2 ∈ documents) := by
  intro l
  induction l with
  | nil => intro m0 p hp; exact Or.inl hp
  | cons q l ih =>
    intro m0 p hp
    rw [List.foldl_cons] at hp
    by_cases hs : (alook m0 q).isSome
    · rw [if_pos hs] at hp
      exact ih m0 p hp
    · rw [if_neg hs] at hp
      cases hf : documents.find? (fun d => d.mget "parent_id" = some q) with
      | none =>
        rw [hf] at hp
        exact ih m0 p hp
      | some doc =>
        rw [hf] at hp
        rcases ih _ p hp with hmem | hgood
        · rcases mem_upsert m0 q _ p hmem with hmem2 | ⟨o, rfl⟩
          · exact Or.inl hmem2
          · right
            have hpred := List.find?_some hf
            have hdoc : doc.mget "parent_id" = some q := by simpa using hpred
            exact ⟨hdoc, List.mem_of_find?_eq_some hf⟩
        · exact Or.inr hgood

/-- C8: parent resolution deduplicates (each distinct owning document at
most once), orders by descending count of referencing fragments with
first-seen order among equal counts, is invariant under swapping two
adjacent hits of the same parent, and maps two A-fragments plus one
B-fragment to `[A, B]`. -/
theorem get_parent_document_spec (documents child_chunks : List Doc) :
    (get_parent_document documents child_chunks).Nodup ∧
      (get_parent_document documents child_chunks).Pairwise (fun dA dB =>
        ∀ pA pB, dA.mget "parent_id" = some pA →
          dB.mget "parent_id" = some pB →
          ((pidSeq child_chunks).filter (fun q => q = pB)).length ≤
            ((pidSeq child_chunks).filter (fun q => q = pA)).length ∧
          (((pidSeq child_chunks).filter (fun q => q = pA)).length =
              ((pidSeq child_chunks).filter (fun q => q = pB)).length →
            optLt (firstPosBy (fun q => q = pA) (pidSeq child_chunks))
              (firstPosBy (fun q => q = pB) (pidSeq child_chunks)))) ∧
      (∀ (l1 l2 : List Doc) (x y : Doc),
        x.mget "parent_id" = y.mget "parent_id" →
        get_parent_document documents (l1 ++ x :: y :: l2) =
          get_parent_document documents (l1 ++ y :: x :: l2)) ∧
      (∀ (docA docB fA1 fA2 fB : Doc) (pidA pidB : MetaVal),
        fA1.mget "parent_id" = some pidA →
        fA2.mget "parent_id" = some pidA →
        fB.mget "parent_id" = some pidB →
        pidA.truthy = true → pidB.truthy = true → pidA ≠ pidB →
        docA.mget "parent_id" = some pidA →
        docB.mget "parent_id" = some pidB →
        get_parent_document [docA, docB] [fA1, fA2, fB] = [docA, docB]) := by
  set L := pidSeq child_chunks with hL
  have hacc := resolve_foldl_split documents child_chunks [] []
  set relF := L.foldl (fun r p => upsert r p (fun o => o.getD 0 + 1))
    ([] : Dict MetaVal Nat) with hrelF
  set dmF := L.foldl (fun m p =>
    if (alook m p).isSome then m
    else
      match documents.find? (fun d => d.mget "parent_id" = some p) with
      | some doc => upsert m p (fun _ => doc)
      | none => m) ([] : Dict MetaVal Doc) with hdmF
  have hout : get_parent_document documents child_chunks =
      (sortDesc (fun pid => (alook relF pid).getD 0)
        (relF.map Prod.fst)).filterMap (alook dmF) := by
    unfold get_parent_document
    rw [hacc]
  have hdict : relF = dictFold (fun p : MetaVal => p)
      (fun _ o => o.getD 0 + 1) L [] := rfl
  have hscore : ∀ k, (alook relF k).getD 0 =
      (L.filter (fun q => q = k)).length := by
    intro k
    rw [hdict, alook_dictFold]
    rw [foldl_bump_getD]
    simp [alook]
  have hdm : ∀ (k : MetaVal) (d : Doc), alook dmF k = some d →
      d.mget "parent_id" = some k ∧ d ∈ documents := by
    intro k d hkd
    have hmem := alook_some_mem dmF k d hkd
    rw [hdmF] at hmem
    rcases dm_fold_entries documents L [] (k, d) hmem with hfalse | hgood
    · simp at hfalse
    · exact hgood
  have hkeysnodup : ((relF.map Prod.fst)).Nodup := by
    rw [hdict]
    exact dictFold_nodup_keys _ _ L [] (by simp)
  have hkeyspw : (relF.map Prod.fst).Pairwise
      (fun k1 k2 => optLt (firstPosBy (fun q => q = k1) L)
        (firstPosBy (fun q => q = k2) L)) := by
    rw [hdict]
    have := dictFold_keys_pairwise (fun p : MetaVal => p)
      (fun _ o => o.getD 0 + 1) L
    exact this
  have hsorted := sortDesc_pairwise (fun pid => (alook relF pid).getD 0)
    (relF.map Prod.fst) hkeyspw
  have hsortednodup : (sortDesc (fun pid => (alook relF pid).getD 0)
      (relF.map Prod.fst)).Nodup :=
    ((sortDesc_perm _ _).nodup_iff).2 hkeysnodup
  refine ⟨?_, ?_, ?_, ?_⟩
  · rw [hout]
    rw [List.Nodup, List.pairwise_filterMap]
    refine List.Pairwise.imp ?_ hsortednodup
    intro k1 k2 hk12 d1 hd1 d2 hd2
    rw [Option.mem_def] at hd1 hd2
    intro hdd
    subst hdd
    have h1 := (hdm k1 d1 hd1).1
    have h2 := (hdm k2 d1 hd2).1
    rw [h1] at h2
    exact hk12 (Option.some_inj.1 h2)
  · rw [hout, List.pairwise_filterMap]
    refine List.Pairwise.imp ?_ hsorted
    intro k1 k2 hk12 d1 hd1 d2 hd2 pA pB hpA hpB
    rw [Option.mem_def] at hd1 hd2
    have h1 := (hdm k1 d1 hd1).1
    have h2 := (hdm k2 d2 hd2).1
    rw [hpA] at h1
    rw [hpB] at h2
    obtain rfl := Option.some_inj.1 h1
    obtain rfl := Option.some_inj.1 h2
    refine ⟨?_, ?_⟩
    · rw [← hscore, ← hscore]
      exact hk12.1
    · intro he
      rw [← hscore, ← hscore] at he
      exact hk12.2 he
  · intro l1 l2 x y hxy
    have hcongr : ∀ acc, resolveStep documents acc x =
        resolveStep documents acc y := by
      intro acc
      unfold resolveStep
      rw [hxy]
    unfold get_parent_document
    rw [List.foldl_append, List.foldl_append, List.foldl_cons,
      List.foldl_cons, List.foldl_cons, List.foldl_cons,
      hcongr (List.foldl (resolveStep documents) ([], []) l1),
      hcongr (resolveStep documents
        (List.foldl (resolveStep documents) ([], []) l1) y)]
  · intro docA docB fA1 fA2 fB pidA pidB hA1 hA2 hB htA htB hne hdA hdB
    have s1 : resolveStep [docA, docB] ([], []) fA1 =
        ([(pidA, 1)], [(pidA, docA)]) := by
      unfold resolveStep
      rw [hA1]
      simp [htA, upsert, alook, List.find?, hdA]
    have s2 : resolveStep [docA, docB] ([(pidA, 1)], [(pidA, docA)]) fA2 =
        ([(pidA, 2)], [(pidA, docA)]) := by
      unfold resolveStep
      rw [hA2]
      simp [htA, upsert, alook]
    have s3 : resolveStep [docA, docB] ([(pidA, 2)], [(pidA, docA)]) fB =
        ([(pidA, 2), (pidB, 1)], [(pidA, docA), (pidB, docB)]) := by
      unfold resolveStep
      rw [hB]
      simp [htB, upsert, alook, List.find?, hdA, hdB, hne, Ne.symm hne]
    unfold get_parent_document
    rw [List.foldl_cons, List.foldl_cons, List.foldl_cons, List.foldl_nil,
      s1, s2, s3]
    have hs1 : alook [(pidA, 2), (pidB, 1)] pidA = some 2 := by
      simp [alook]
    have hs2 : alook [(pidA, 2), (pidB, 1)] pidB = some 1 := by
      simp [alook, hne]
    simp only [List.map_cons, List.map_nil, sortDesc, insDesc, hs1, hs2]
    norm_num
    simp [List.filterMap_cons, alook, Ne.symm hne, hne]

/-! ## C9: mutation behaviour of the pipeline stages -/

/-- C9 (amended): index construction **does** mutate the shared fragments —
every fragment's text is rewritten in place to `菜品：{dish_name}\n{text}`,
which always differs from the original text (metadata is untouched) — while
parent resolution and fusion do not create or alter documents: every
document they return is drawn from their input collections. -/
theorem build_vector_index_mutates (chunks : List Doc) (d0 : Doc)
    (ds : List Doc) (hchunks : chunks = d0 :: ds) :
    (∃ out, build_vector_index chunks = Except.ok out ∧
      out.length = chunks.length ∧
      ∀ (j : Nat) (hj : j < chunks.length), ∃ hj2 : j < out.length,
        (out[j]).metadata = (chunks[j]).metadata ∧
        (out[j]).page_content =
          "菜品：" ++ (((chunks[j]).mget "dish_name").getD (.str "")).render
            ++ "\n" ++ (chunks[j]).page_content ∧
        (out[j]).page_content ≠ (chunks[j]).page_content) ∧
    (∀ (documents child_chunks : List Doc),
      ∀ d ∈ get_parent_document documents child_chunks, d ∈ documents) ∧
    (∀ (h : String → Int) (vec bm : List Doc),
      ∀ d ∈ rrf_rerank h vec bm, d ∈ vec ++ bm) := by
  refine ⟨?_, ?_, ?_⟩
  · subst hchunks
    refine ⟨_, rfl, by simp, ?_⟩
    intro j hj
    refine ⟨by simpa using hj, ?_, ?_, ?_⟩
    · rw [List.getElem_map]
    · rw [List.getElem_map]
    · rw [List.getElem_map]
      intro he
      have hlen := congrArg String.length he
      simp only [String.length_append] at hlen
      have h3 : ("菜品：" : String).length = 3 := by decide
      have h1 : ("\n" : String).length = 1 := by decide
      rw [h3, h1] at hlen
      omega
  · intro documents child_chunks d hd
    have hacc := resolve_foldl_split documents child_chunks [] []
    have hout : get_parent_document documents child_chunks =
        (sortDesc (fun pid =>
          (alook ((pidSeq child_chunks).foldl
            (fun r p => upsert r p (fun o => o.getD 0 + 1)) []) pid).getD 0)
          (((pidSeq child_chunks).foldl
            (fun r p => upsert r p (fun o => o.getD 0 + 1)) []).map
              Prod.fst)).filterMap
          (alook ((pidSeq child_chunks).foldl (fun m p =>
            if (alook m p).isSome then m
            else
              match documents.find?
                  (fun d2 => d2.mget "parent_id" = some p) with
              | some doc => upsert m p (fun _ => doc)
              | none => m) [])) := by
      unfold get_parent_document
      rw [hacc]
    rw [hout] at hd
    obtain ⟨k, _, hk⟩ := List.mem_filterMap.1 hd
    have hmem := alook_some_mem _ k d hk
    rcases dm_fold_entries documents (pidSeq child_chunks) [] (k, d) hmem with
      hfalse | hgood
    · simp at hfalse
    · exact hgood.2
  · intro h vec bm d hd
    have hSperm := sortDesc_perm
      (fun p : Int × Doc => rrf_scores h vec bm p.1) (all_docs h (vec ++ bm))
    obtain ⟨p, hpS, rfl⟩ := List.mem_map.1 hd
    exact (all_docs_entries h (vec ++ bm) p (hSperm.mem_iff.1 hpS)).2

/-- C9 (witness): index construction on a one-fragment corpus returns a
rewritten fragment list of the same length. -/
theorem build_vector_index_mutates_witness :
    ∃ out, build_vector_index [dishDoc] = Except.ok out ∧ out.length = 1 := by
  obtain ⟨⟨out, hok, hlen, _⟩, _, _⟩ :=
    build_vector_index_mutates [dishDoc] dishDoc [] rfl
  exact ⟨out, hok, by rw [hlen]; rfl⟩

/-- C9 (counterexample): index construction changes a fragment's text
content in place: after `build_vector_index`, the stored fragment's text is
the dish-name header plus the old text, not the text it was created with. -/
theorem build_vector_index_mutation_example :
    build_vector_index [dishDoc] =
      Except.ok [({ page_content := "菜品：宫保鸡丁\n做法正文",
                    metadata := [("dish_name", MetaVal.str "宫保鸡丁")] } : Doc)] ∧
      "菜品：宫保鸡丁\n做法正文" ≠ dishDoc.page_content := by
  exact ⟨rfl, by decide⟩

/-! ## Remaining witnesses -/

/-- C1 (witness): at a concrete collision corpus, the merged key of the
duplicate text is reported present among the fused output's keys. -/
theorem rrf_rerank_merges_witness :
    (2 : Int) ∈ (rrf_rerank hLen [dupA] [dupB]).map
      (fun d => hLen d.page_content) :=
  ((rrf_rerank_merges_by_content_hash hLen [dupA] [dupB]).2.1 2).mpr
    (by decide)

/-- C7 (witness): on a concrete query the hybrid output length is bounded
by `top_k` and a concrete returned fragment comes from one of the two
ranked lists. -/
theorem hybrid_search_props_witness :
    (hybrid_search hLen (fun _ => [docA]) (fun _ => []) "q" 1).length ≤ 1 ∧
      (docA ∈ ([docA] : List Doc) ∨ docA ∈ ([] : List Doc)) := by
  refine ⟨(hybrid_search_props hLen (fun _ => [docA])
    (fun _ => []) "q" 1).1, ?_⟩
  exact (hybrid_search_props hLen (fun _ => [docA])
    (fun _ => []) "q" 1).2.1 docA (by decide)

/-- C8 (witness): two fragments of parent A and one of parent B resolve to
`[A, B]` on concrete documents. -/
theorem get_parent_document_spec_witness :
    get_parent_document [docPA, docPB] [fragA1, fragA2, fragB1] =
      [docPA, docPB] :=
  (get_parent_document_spec [docPA, docPB] [fragA1, fragA2, fragB1]).2.2.2
    docPA docPB fragA1 fragA2 fragB1 (.str "pa") (.str "pb")
    (by decide) (by decide) (by decide) (by decide) (by decide) (by decide)
    (by decide) (by decide)

end ChefGPT
